import Mathlib

/-!
ScriptExpressionParser.

A verification development for `Logic/ScriptExpressionParser.cpp`: the
precedence-climbing expression parser of the script compiler.

The C++ parser threads one mutable iterator (`TokenIterator& pos`) through
its recursive calls and signals failure by throwing.  Here the iterator is an
index into the token list, every reading function returns the final index
together with either its value or the exception thrown, and the recursion is
indexed by a fuel argument that is shown to be sufficient for every input.
-/

namespace Logic.Scripts.Compiler

/-! ## Tokens -/

/-- Modelled from the spec: the token classification, whose declaration is in
a header that is not among the sources.  The constructors are the kinds the
parser names (`Operator`, `Text` and the six literal kinds); `Other` stands for
any further kind of the enumeration. -/
inductive TokenType
  | Text
  | Number
  | String
  | GameObject
  | ScriptObject
  | Variable
  | Constant
  | Operator
  | Other
  deriving DecidableEq, Repr

/-- Modelled from the spec: a lexed token, whose declaration is in a header
that is not among the sources.  `Kind` is the C++ member `Type`, `Text` the
source text, `Start` and `End` the span within the line. -/
structure ScriptToken where
  Kind : TokenType
  Text : String
  Start : Nat
  End : Nat
  deriving DecidableEq, Repr

/-! ## Expression trees -/

/-- Modelled from the spec: the four node classes built by the parser
(`LiteralValue`, `UnaryExpression`, `BinaryExpression`, `BracketedExpression`);
their declarations are in a header that is not among the sources.  The
constructor arguments are in the order of the `new` expressions of the parser. -/
inductive Expression
  | LiteralValue (token : ScriptToken)
  | UnaryExpression (op : ScriptToken) (value : Expression)
  | BinaryExpression (op : ScriptToken) (left : Expression) (right : Expression)
  | BracketedExpression (open_ : ScriptToken) (expr : Expression) (close : ScriptToken)
  deriving DecidableEq, Repr

/-- The traversal orders accepted by `getTokenArray`. -/
inductive Traversal
  | PreOrder
  | InOrder
  | PostOrder
  deriving DecidableEq, Repr

/-- Modelled from the spec: `Expression::getTokenArray`, whose body is in a
header that is not among the sources.  Literal: its token in every order.
Unary: operator then operand in pre- and in-order, operand then operator in
post-order.  Binary: operator first (pre), between (in) or last (post).
Bracketed: the brackets around the inner tokens in pre- and in-order, the
inner tokens alone in post-order. -/
def Expression.getTokenArray : Traversal → Expression → List ScriptToken
  | _, .LiteralValue t => [t]
  | .PreOrder, .UnaryExpression op v => [op] ++ getTokenArray .PreOrder v
  | .InOrder, .UnaryExpression op v => [op] ++ getTokenArray .InOrder v
  | .PostOrder, .UnaryExpression op v => getTokenArray .PostOrder v ++ [op]
  | .PreOrder, .BinaryExpression op l r =>
      [op] ++ getTokenArray .PreOrder l ++ getTokenArray .PreOrder r
  | .InOrder, .BinaryExpression op l r =>
      getTokenArray .InOrder l ++ [op] ++ getTokenArray .InOrder r
  | .PostOrder, .BinaryExpression op l r =>
      getTokenArray .PostOrder l ++ getTokenArray .PostOrder r ++ [op]
  | .PreOrder, .BracketedExpression o e c => [o] ++ getTokenArray .PreOrder e ++ [c]
  | .InOrder, .BracketedExpression o e c => [o] ++ getTokenArray .InOrder e ++ [c]
  | .PostOrder, .BracketedExpression _ e _ => getTokenArray .PostOrder e

/-! ## Exceptions and results -/

/-- The three exception classes the parser throws, with their message
(`ArgumentException` also carries the argument name). -/
inductive ParserException
  | ScriptSyntaxException (msg : String)
  | InvalidOperationException (msg : String)
  | ArgumentException (arg : String) (msg : String)
  deriving DecidableEq, Repr

deriving instance DecidableEq for Except

/-- What a reading function leaves behind: the value returned or the exception
thrown, and the position of the iterator it was handed by reference. -/
abbrev Reading (α : Type) := Except ParserException α × Nat

/-- Modelled from the spec: `MIN_PRECEDENCE`, declared in a header that is not
among the sources; the lowest of the ten levels. -/
def MIN_PRECEDENCE : Nat := 0

/-- Modelled from the spec: `MAX_PRECEDENCE`, declared in a header that is not
among the sources; the highest of the ten levels. -/
def MAX_PRECEDENCE : Nat := 9

/-- The `%d` rendering of a 32-bit unsigned value. -/
def formatD (n : Nat) : String :=
  if n % 2 ^ 32 < 2 ^ 31 then toString (n % 2 ^ 32) else "-" ++ toString (2 ^ 32 - n % 2 ^ 32)

/-- The characters a `%s` format reads from `Text.c_str()`: those before the
first NUL character of the text, all of them when it has none. -/
def c_str (text : String) : String :=
  String.mk (text.toList.takeWhile (fun ch => ch != Char.ofNat 0))

/-! ## Matching and reading single tokens

The token list is the range `[InputBegin, InputEnd)`: `InputEnd` is its length,
and `ts[pos]?` is `none` exactly when `pos >= InputEnd`. -/

/-- `MatchLiteral`: the position is inside the input and holds a token of one
of the six literal kinds. -/
def MatchLiteral (ts : List ScriptToken) (pos : Nat) : Bool :=
  match ts[pos]? with
  | none => false
  | some t =>
    match t.Kind with
    | .Variable => true
    | .Constant => true
    | .Number => true
    | .String => true
    | .GameObject => true
    | .ScriptObject => true
    | _ => false

/-- `MatchOperator(pos, op)`: the position is inside the input and holds an
operator token with the given text. -/
def MatchOperator_op (ts : List ScriptToken) (pos : Nat) (op : String) : Bool :=
  match ts[pos]? with
  | none => false
  | some t => t.Kind == .Operator && t.Text == op

/-- `MatchOperator(pos, precedence)`: false outside the input or on a token
that is not an operator; otherwise the precedence table, which throws on a
level it does not list. -/
def MatchOperator_precedence (ts : List ScriptToken) (pos : Nat) (precedence : Nat) :
    Except ParserException Bool :=
  match ts[pos]? with
  | none => .ok false
  | some t =>
    if t.Kind ≠ .Operator then .ok false
    else
      match precedence with
      | 0 => .ok (t.Text == "OR")
      | 1 => .ok (t.Text == "AND")
      | 2 => .ok (t.Text == "|")
      | 3 => .ok (t.Text == "^")
      | 4 => .ok (t.Text == "&")
      | 5 => .ok (t.Text == "==" || t.Text == "!=")
      | 6 => .ok (t.Text == "<" || t.Text == ">" || t.Text == "<=" || t.Text == ">=")
      | 7 => .ok (t.Text == "+" || t.Text == "-")
      | 8 => .ok (t.Text == "*" || t.Text == "/" || t.Text == "mod")
      | 9 => .ok (t.Text == "~" || t.Text == "-" || t.Text == "!")
      | _ => .error (.ArgumentException "precedence" ("Invalid precedence " ++ formatD precedence))

/-- `ReadLiteral`: throws outside the input and on an operator or text token;
otherwise returns the token and advances. -/
def ReadLiteral (ts : List ScriptToken) (pos : Nat) : Reading ScriptToken :=
  match ts[pos]? with
  | none => (.error (.InvalidOperationException "Not a literal"), pos)
  | some t =>
    if t.Kind = .Operator ∨ t.Kind = .Text then
      (.error (.InvalidOperationException "Not a literal"), pos)
    else (.ok t, pos + 1)

/-- `ReadOperator`: throws outside the input and on a token that is not an
operator; otherwise returns the token and advances. -/
def ReadOperator (ts : List ScriptToken) (pos : Nat) : Reading ScriptToken :=
  match ts[pos]? with
  | none => (.error (.InvalidOperationException "Not an operator"), pos)
  | some t =>
    if t.Kind ≠ .Operator then (.error (.InvalidOperationException "Not an operator"), pos)
    else (.ok t, pos + 1)

/-! ## The recursive descent

The four mutually recursive functions of the parser, and the `while` loop of
`ReadBinaryExpression` as a fifth.  Each takes a fuel argument that bounds the
depth of calls; `none` means the fuel ran out. -/

mutual

/-- `ReadExpression`: a binary expression of the lowest precedence. -/
def ReadExpressionAux (ts : List ScriptToken) : Nat → Nat → Option (Reading Expression)
  | 0, _ => none
  | fuel + 1, pos => ReadBinaryExpressionAux ts fuel pos MIN_PRECEDENCE
termination_by structural fuel => fuel

/-- `ReadBinaryExpression`: an operand of the next level (a unary expression
at the highest level), then the operator loop. -/
def ReadBinaryExpressionAux (ts : List ScriptToken) :
    Nat → Nat → Nat → Option (Reading Expression)
  | 0, _, _ => none
  | fuel + 1, pos, precedence =>
    match (if precedence < MAX_PRECEDENCE then ReadBinaryExpressionAux ts fuel pos (precedence + 1)
           else ReadUnaryExpressionAux ts fuel pos) with
    | none => none
    | some (.error e, pos1) => some (.error e, pos1)
    | some (.ok expr, pos1) => ReadBinaryExpression_whileAux ts fuel expr pos1 precedence
termination_by structural fuel => fuel

/-- The loop of `ReadBinaryExpression`: while an operator of the level is at
the position, read it, read the right operand and fold to the left. -/
def ReadBinaryExpression_whileAux (ts : List ScriptToken) :
    Nat → Expression → Nat → Nat → Option (Reading Expression)
  | 0, _, _, _ => none
  | fuel + 1, expr, pos, precedence =>
    match MatchOperator_precedence ts pos precedence with
    | .error e => some (.error e, pos)
    | .ok false => some (.ok expr, pos)
    | .ok true =>
      match ReadOperator ts pos with
      | (.error e, pos1) => some (.error e, pos1)
      | (.ok op, pos1) =>
        match (if precedence < MAX_PRECEDENCE then
                 ReadBinaryExpressionAux ts fuel pos1 (precedence + 1)
               else ReadUnaryExpressionAux ts fuel pos1) with
        | none => none
        | some (.error e, pos2) => some (.error e, pos2)
        | some (.ok rhs, pos2) =>
          ReadBinaryExpression_whileAux ts fuel (.BinaryExpression op expr rhs) pos2 precedence
termination_by structural fuel => fuel

/-- `ReadUnaryExpression`: an optional operator of the highest level, then a
value. -/
def ReadUnaryExpressionAux (ts : List ScriptToken) : Nat → Nat → Option (Reading Expression)
  | 0, _ => none
  | fuel + 1, pos =>
    match MatchOperator_precedence ts pos MAX_PRECEDENCE with
    | .error e => some (.error e, pos)
    | .ok true =>
      match ReadOperator ts pos with
      | (.error e, pos1) => some (.error e, pos1)
      | (.ok op, pos1) =>
        match ReadValueAux ts fuel pos1 with
        | none => none
        | some (.error e, pos2) => some (.error e, pos2)
        | some (.ok value, pos2) => some (.ok (.UnaryExpression op value), pos2)
    | .ok false => ReadValueAux ts fuel pos
termination_by structural fuel => fuel

/-- `ReadValue`: a literal, or a bracketed expression; otherwise a syntax
error. -/
def ReadValueAux (ts : List ScriptToken) : Nat → Nat → Option (Reading Expression)
  | 0, _ => none
  | fuel + 1, pos =>
    if MatchLiteral ts pos then
      match ReadLiteral ts pos with
      | (.error e, pos1) => some (.error e, pos1)
      | (.ok t, pos1) => some (.ok (.LiteralValue t), pos1)
    else if !MatchOperator_op ts pos "(" then
      match ts[pos]? with
      | none => some (.error (.ScriptSyntaxException "Missing operand"), pos)
      | some t =>
        some (.error (.ScriptSyntaxException ("Unexpected \x27" ++ c_str t.Text ++ "\x27")),
          pos)
    else
      match ReadOperator ts pos with
      | (.error e, pos1) => some (.error e, pos1)
      | (.ok open_, pos1) =>
        match ReadExpressionAux ts fuel pos1 with
        | none => none
        | some (.error e, pos2) => some (.error e, pos2)
        | some (.ok expr, pos2) =>
          if MatchOperator_op ts pos2 ")" then
            match ReadOperator ts pos2 with
            | (.error e, pos3) => some (.error e, pos3)
            | (.ok close, pos3) => some (.ok (.BracketedExpression open_ expr close), pos3)
          else some (.error (.ScriptSyntaxException "Missing closing bracket"), pos2)
termination_by structural fuel => fuel

end

/-! ## Total functions

Fuel `13 * InputEnd + 13` is enough for every call on a given input
(`runAux_total`), and more fuel never changes a result (`runAux_mono`), so the
functions below are the parser's functions themselves. -/

/-- A call of one of the five recursive functions, with its arguments. -/
inductive Call
  | expression (pos : Nat)
  | binary (pos : Nat) (precedence : Nat)
  | loop (expr : Expression) (pos : Nat) (precedence : Nat)
  | unary (pos : Nat)
  | value (pos : Nat)

/-- The operand read by `ReadBinaryExpression` at a level: a binary expression
of the next level, or a unary expression at the highest level. -/
def Call.operand (pos : Nat) (precedence : Nat) : Call :=
  if precedence < MAX_PRECEDENCE then .binary pos (precedence + 1) else .unary pos

/-- The position a call starts from. -/
def Call.pos : Call → Nat
  | .expression pos => pos
  | .binary pos _ => pos
  | .loop _ pos _ => pos
  | .unary pos => pos
  | .value pos => pos

/-- The call is the loop of `ReadBinaryExpression`, which may read nothing. -/
def Call.isLoop : Call → Bool
  | .loop _ _ _ => true
  | _ => false

/-- The depth of calls a call can reach on an input of the given length. -/
def Call.need (len : Nat) : Call → Nat
  | .expression pos => 13 * (len - pos) + 13
  | .binary pos precedence => 13 * (len - pos) + 3 + (9 - precedence)
  | .loop _ pos precedence => 13 * (len - pos) + 2 + (9 - precedence)
  | .unary pos => 13 * (len - pos) + 2
  | .value pos => 13 * (len - pos) + 1

/-- The precedence level a call works at: its own for `ReadBinaryExpression`
and its loop, the lowest for `ReadExpression`, and one above the highest for
`ReadUnaryExpression` and `ReadValue`, which fold no binary operator. -/
def Call.level : Call → Nat
  | .expression _ => MIN_PRECEDENCE
  | .binary _ precedence => precedence
  | .loop _ _ precedence => precedence
  | .unary _ => MAX_PRECEDENCE + 1
  | .value _ => MAX_PRECEDENCE + 1

/-- The precedence of the call is a level of the table. -/
def Call.inTable : Call → Prop
  | .binary _ precedence => precedence ≤ MAX_PRECEDENCE
  | .loop _ _ precedence => precedence ≤ MAX_PRECEDENCE
  | _ => True

/-- Running a call with a given fuel. -/
def runAux (ts : List ScriptToken) (fuel : Nat) : Call → Option (Reading Expression)
  | .expression pos => ReadExpressionAux ts fuel pos
  | .binary pos precedence => ReadBinaryExpressionAux ts fuel pos precedence
  | .loop expr pos precedence => ReadBinaryExpression_whileAux ts fuel expr pos precedence
  | .unary pos => ReadUnaryExpressionAux ts fuel pos
  | .value pos => ReadValueAux ts fuel pos

/-- Fuel that suffices for every call on the input. -/
def fuelFor (ts : List ScriptToken) : Nat := 13 * ts.length + 13

/-- Running a call with sufficient fuel.  The alternative of `getD` is never
taken (`runAux_total`). -/
def run (ts : List ScriptToken) (c : Call) : Reading Expression :=
  (runAux ts (fuelFor ts) c).getD (.error (.InvalidOperationException "fuel"), 0)

/-- `ReadExpression(pos)`. -/
def ReadExpression (ts : List ScriptToken) (pos : Nat) : Reading Expression :=
  run ts (.expression pos)

/-- `ReadBinaryExpression(pos, precedence)`. -/
def ReadBinaryExpression (ts : List ScriptToken) (pos : Nat) (precedence : Nat) :
    Reading Expression :=
  run ts (.binary pos precedence)

/-- `ReadUnaryExpression(pos)`. -/
def ReadUnaryExpression (ts : List ScriptToken) (pos : Nat) : Reading Expression :=
  run ts (.unary pos)

/-- `ReadValue(pos)`. -/
def ReadValue (ts : List ScriptToken) (pos : Nat) : Reading Expression :=
  run ts (.value pos)

/-- The members of the parser object that `Parse` leaves behind, and the
message it wrote to the console in its `catch` block.  The debug trace of the
input and of the tree is not modelled. -/
structure ParserState where
  InputBegin : Nat
  InfixParams : List ScriptToken
  PostfixParams : List ScriptToken
  Message : Option String
  deriving DecidableEq, Repr

/-- `Parse()` on a fresh parser over the tokens `ts`: reads an expression from
`InputBegin`, and fills the infix and postfix arrays from the tree.  A
`ScriptSyntaxException` is caught and its message written to the console; any
other exception leaves the function. -/
def Parse (ts : List ScriptToken) : Except ParserException ParserState :=
  match ReadExpression ts 0 with
  | (.ok tree, pos) =>
    .ok { InputBegin := pos
          InfixParams := tree.getTokenArray .InOrder
          PostfixParams := tree.getTokenArray .PostOrder
          Message := none }
  | (.error (.ScriptSyntaxException msg), pos) =>
    .ok { InputBegin := pos, InfixParams := [], PostfixParams := [], Message := some msg }
  | (.error e, _) => .error e

/-- The tokens between two positions of the iterator: those a call consumed
when it started at `a` and ended at `b`. -/
def consumed (ts : List ScriptToken) (a b : Nat) : List ScriptToken :=
  (ts.drop a).take (b - a)

/-- The tokens already folded into the tree a call was handed: the in-order
tokens of the left operand for the loop, none for the other calls. -/
def Call.folded : Call → List ScriptToken
  | .loop expr _ _ => expr.getTokenArray .InOrder
  | _ => []

/-- The operator token binds at the level: `MatchOperator(pos, level)` is true
at a position holding the token. -/
def ScriptToken.BindsAt (t : ScriptToken) (level : Nat) : Prop :=
  MatchOperator_precedence [t] 0 level = .ok true

instance (t : ScriptToken) (level : Nat) : Decidable (t.BindsAt level) := by
  unfold ScriptToken.BindsAt; infer_instance

/-- The highest level the operator token binds at is `level`: this is the
level whose loop folds it, since the levels are tried from the highest down. -/
def ScriptToken.FoldsAt (t : ScriptToken) (level : Nat) : Prop :=
  t.BindsAt level ∧ ∀ l, level < l → l ≤ MAX_PRECEDENCE → ¬ t.BindsAt l

/-- No operator of the levels from `level` up is at the position. -/
def NoOperatorFrom (ts : List ScriptToken) (pos : Nat) (level : Nat) : Prop :=
  ∀ l, level ≤ l → l ≤ MAX_PRECEDENCE → MatchOperator_precedence ts pos l = .ok false

/-- The operator texts of the levels 0 to 8 of the precedence table. -/
def binaryOperatorTexts : List String :=
  ["OR", "AND", "|", "^", "&", "==", "!=", "<", ">", "<=", ">=", "+", "-", "*", "/", "mod"]

/-- The operator texts of level 9 of the precedence table. -/
def unaryOperatorTexts : List String := ["~", "-", "!"]

/-- The operator texts of the precedence table, levels 0 to 9. -/
def operatorTexts : List String := binaryOperatorTexts ++ unaryOperatorTexts

/-! ## Sample tokens -/

/-- A token of the given kind and text, with an empty span. -/
def tok (kind : TokenType) (text : String) : ScriptToken :=
  { Kind := kind, Text := text, Start := 0, End := 0 }

/-- The variable `a`. -/
def tokA : ScriptToken := tok .Variable "a"

/-- The variable `b`. -/
def tokB : ScriptToken := tok .Variable "b"

/-- The variable `c`. -/
def tokC : ScriptToken := tok .Variable "c"

/-- The number `1`. -/
def tok1 : ScriptToken := tok .Number "1"

/-- The number `2`. -/
def tok2 : ScriptToken := tok .Number "2"

/-- The operator with the given text. -/
def tokOp (text : String) : ScriptToken := tok .Operator text

/-! ## The parser as a relation

`Reads ts c r` holds when the call `c` on the input `ts` ends in `r`.  It has
one rule for each path through the code that can be taken; it is equivalent to
`run ts c = r` (`run_eq_iff`) and serves as the induction principle over the
calls of the parser. -/

/-- The tokens of the six literal kinds. -/
def ScriptToken.IsLiteral (t : ScriptToken) : Prop :=
  t.Kind = .Variable ∨ t.Kind = .Constant ∨ t.Kind = .Number ∨ t.Kind = .String ∨
    t.Kind = .GameObject ∨ t.Kind = .ScriptObject

instance (t : ScriptToken) : Decidable t.IsLiteral := by
  unfold ScriptToken.IsLiteral; infer_instance

/-- The precedence table as the specification gives it: the operator texts
of each level, none for a level outside 0 to 9. -/
def precedenceTable : Nat → List String
  | 0 => ["OR"]
  | 1 => ["AND"]
  | 2 => ["|"]
  | 3 => ["^"]
  | 4 => ["&"]
  | 5 => ["==", "!="]
  | 6 => ["<", ">", "<=", ">="]
  | 7 => ["+", "-"]
  | 8 => ["*", "/", "mod"]
  | 9 => ["~", "-", "!"]
  | _ => []

/-- The token is the operator `(` or the operator `)`. -/
def ScriptToken.isBracket (t : ScriptToken) : Bool :=
  t.Kind == .Operator && (t.Text == "(" || t.Text == ")")

/-- The number of bracketed nodes of a tree. -/
def Expression.brackets : Expression → Nat
  | .LiteralValue _ => 0
  | .UnaryExpression _ v => v.brackets
  | .BinaryExpression _ l r => l.brackets + r.brackets
  | .BracketedExpression _ e _ => e.brackets + 1

/-- The tokens of a tree are of the kind its nodes stand for: a literal node
holds a token of a literal kind, a unary node an operator of level 9, a binary
node an operator of the table, and a bracketed node the operators `(` and `)`. -/
def Expression.WellFormed : Expression → Prop
  | .LiteralValue t => t.IsLiteral
  | .UnaryExpression op v =>
      (op.Kind = .Operator ∧ op.Text ∈ unaryOperatorTexts) ∧ v.WellFormed
  | .BinaryExpression op l r =>
      (op.Kind = .Operator ∧ op.Text ∈ operatorTexts) ∧ l.WellFormed ∧ r.WellFormed
  | .BracketedExpression o e c =>
      (o.Kind = .Operator ∧ o.Text = "(") ∧ (c.Kind = .Operator ∧ c.Text = ")") ∧ e.WellFormed

/-- The tree a call was handed is well formed: the left operand for the loop,
nothing for the other calls. -/
def Call.WellFormedInput : Call → Prop
  | .loop expr _ _ => expr.WellFormed
  | _ => True

/-- A call that started at `s` left the iterator at or after `s` and inside
the input, and strictly after `s` when it returned a tree. -/
def Advances (ts : List ScriptToken) (s : Nat) (r : Reading Expression) : Prop :=
  s ≤ r.2 ∧ r.2 ≤ ts.length ∧ ∀ e, r.1 = .ok e → s < r.2

/-- The tree is a node built by `ReadValue`: a literal or a bracketed
expression. -/
def Expression.isValue : Expression → Bool
  | .LiteralValue _ => true
  | .BracketedExpression _ _ _ => true
  | _ => false

/-- The operand of every unary node of the tree is a literal or a bracketed
expression. -/
def Expression.UnaryPlain : Expression → Prop
  | .LiteralValue _ => True
  | .UnaryExpression _ v => v.isValue = true ∧ v.UnaryPlain
  | .BinaryExpression _ l r => l.UnaryPlain ∧ r.UnaryPlain
  | .BracketedExpression _ e _ => e.UnaryPlain

/-- The tree a call was handed has plain unary operands: the left operand for
the loop, nothing for the other calls. -/
def Call.UnaryPlainInput : Call → Prop
  | .loop expr _ _ => expr.UnaryPlain
  | _ => True

/-- The call is a call of `ReadValue`. -/
def Call.isValue : Call → Bool
  | .value _ => true
  | _ => false

/-- The big-step relation of the parser. -/
inductive Reads (ts : List ScriptToken) : Call → Reading Expression → Prop
  | expression {pos r} :
      Reads ts (.binary pos MIN_PRECEDENCE) r → Reads ts (.expression pos) r
  | binary_throw {pos precedence e pos1} :
      Reads ts (Call.operand pos precedence) (.error e, pos1) →
      Reads ts (.binary pos precedence) (.error e, pos1)
  | binary_loop {pos precedence expr pos1 r} :
      Reads ts (Call.operand pos precedence) (.ok expr, pos1) →
      Reads ts (.loop expr pos1 precedence) r →
      Reads ts (.binary pos precedence) r
  | loop_throw {expr pos precedence e} :
      MatchOperator_precedence ts pos precedence = .error e →
      Reads ts (.loop expr pos precedence) (.error e, pos)
  | loop_exit {expr pos precedence} :
      MatchOperator_precedence ts pos precedence = .ok false →
      Reads ts (.loop expr pos precedence) (.ok expr, pos)
  | loop_rhs_throw {expr pos precedence op e pos2} :
      MatchOperator_precedence ts pos precedence = .ok true →
      ts[pos]? = some op →
      Reads ts (Call.operand (pos + 1) precedence) (.error e, pos2) →
      Reads ts (.loop expr pos precedence) (.error e, pos2)
  | loop_fold {expr pos precedence op rhs pos2 r} :
      MatchOperator_precedence ts pos precedence = .ok true →
      ts[pos]? = some op →
      Reads ts (Call.operand (pos + 1) precedence) (.ok rhs, pos2) →
      Reads ts (.loop (.BinaryExpression op expr rhs) pos2 precedence) r →
      Reads ts (.loop expr pos precedence) r
  | unary_throw {pos op e pos2} :
      MatchOperator_precedence ts pos MAX_PRECEDENCE = .ok true →
      ts[pos]? = some op →
      Reads ts (.value (pos + 1)) (.error e, pos2) →
      Reads ts (.unary pos) (.error e, pos2)
  | unary_op {pos op value pos2} :
      MatchOperator_precedence ts pos MAX_PRECEDENCE = .ok true →
      ts[pos]? = some op →
      Reads ts (.value (pos + 1)) (.ok value, pos2) →
      Reads ts (.unary pos) (.ok (.UnaryExpression op value), pos2)
  | unary_value {pos r} :
      MatchOperator_precedence ts pos MAX_PRECEDENCE = .ok false →
      Reads ts (.value pos) r →
      Reads ts (.unary pos) r
  | value_literal {pos t} :
      ts[pos]? = some t → t.IsLiteral →
      Reads ts (.value pos) (.ok (.LiteralValue t), pos + 1)
  | value_missing {pos} :
      ts[pos]? = none →
      Reads ts (.value pos) (.error (.ScriptSyntaxException "Missing operand"), pos)
  | value_unexpected {pos t} :
      ts[pos]? = some t → ¬ t.IsLiteral → MatchOperator_op ts pos "(" = false →
      Reads ts (.value pos)
        (.error (.ScriptSyntaxException ("Unexpected \x27" ++ c_str t.Text ++ "\x27")), pos)
  | value_inner_throw {pos e pos2} :
      MatchOperator_op ts pos "(" = true →
      Reads ts (.expression (pos + 1)) (.error e, pos2) →
      Reads ts (.value pos) (.error e, pos2)
  | value_unclosed {pos expr pos2} :
      MatchOperator_op ts pos "(" = true →
      Reads ts (.expression (pos + 1)) (.ok expr, pos2) →
      MatchOperator_op ts pos2 ")" = false →
      Reads ts (.value pos) (.error (.ScriptSyntaxException "Missing closing bracket"), pos2)
  | value_bracket {pos open_ expr pos2 close} :
      MatchOperator_op ts pos "(" = true → ts[pos]? = some open_ →
      Reads ts (.expression (pos + 1)) (.ok expr, pos2) →
      MatchOperator_op ts pos2 ")" = true → ts[pos2]? = some close →
      Reads ts (.value pos) (.ok (.BracketedExpression open_ expr close), pos2 + 1)

/-! ## Single tokens -/

theorem MatchLiteral_eq_true_iff (ts : List ScriptToken) (pos : Nat) :
    MatchLiteral ts pos = true ↔ ∃ t, ts[pos]? = some t ∧ t.IsLiteral := by
  unfold MatchLiteral ScriptToken.IsLiteral
  cases h : ts[pos]? with
  | none => simp
  | some t => cases hk : t.Kind <;> simp [hk]

theorem MatchOperator_op_eq_true_iff (ts : List ScriptToken) (pos : Nat) (op : String) :
    MatchOperator_op ts pos op = true ↔
      ∃ t, ts[pos]? = some t ∧ t.Kind = .Operator ∧ t.Text = op := by
  unfold MatchOperator_op
  cases h : ts[pos]? with
  | none => simp
  | some t => simp

theorem MatchOperator_precedence_true (ts : List ScriptToken) (pos precedence : Nat)
    (h : MatchOperator_precedence ts pos precedence = .ok true) :
    ∃ t, ts[pos]? = some t ∧ t.Kind = .Operator := by
  unfold MatchOperator_precedence at h
  cases hx : ts[pos]? with
  | none => simp [hx] at h
  | some t =>
    by_cases hk : t.Kind = .Operator
    · exact ⟨t, rfl, hk⟩
    · simp [hx, hk] at h

theorem ReadOperator_of_operator (ts : List ScriptToken) (pos : Nat) (t : ScriptToken)
    (h : ts[pos]? = some t) (hk : t.Kind = .Operator) :
    ReadOperator ts pos = (.ok t, pos + 1) := by
  simp [ReadOperator, h, hk]

theorem ReadLiteral_of_literal (ts : List ScriptToken) (pos : Nat) (t : ScriptToken)
    (h : ts[pos]? = some t) (hk : t.IsLiteral) :
    ReadLiteral ts pos = (.ok t, pos + 1) := by
  unfold ScriptToken.IsLiteral at hk
  rcases hk with hk | hk | hk | hk | hk | hk <;> simp [ReadLiteral, h, hk]

theorem MatchOperator_precedence_MAX_ne_error (ts : List ScriptToken) (pos : Nat)
    (e : ParserException) : MatchOperator_precedence ts pos MAX_PRECEDENCE ≠ .error e := by
  unfold MatchOperator_precedence MAX_PRECEDENCE
  cases hx : ts[pos]? with
  | none => simp
  | some t => by_cases hk : t.Kind = .Operator <;> simp [hk]

/-! ## Fuel -/

theorem runAux_zero (ts : List ScriptToken) (c : Call) : runAux ts 0 c = none := by
  cases c <;> simp [runAux, ReadExpressionAux, ReadBinaryExpressionAux,
    ReadBinaryExpression_whileAux, ReadUnaryExpressionAux, ReadValueAux]

theorem runAux_operand (ts : List ScriptToken) (fuel pos precedence : Nat) :
    runAux ts fuel (Call.operand pos precedence) =
      if precedence < MAX_PRECEDENCE then ReadBinaryExpressionAux ts fuel pos (precedence + 1)
      else ReadUnaryExpressionAux ts fuel pos := by
  unfold Call.operand
  split_ifs <;> rfl

/-- One more unit of fuel does not change a result. -/
theorem runAux_succ (ts : List ScriptToken) :
    ∀ (n : Nat) (c : Call) (r : Reading Expression),
      runAux ts n c = some r → runAux ts (n + 1) c = some r := by
  intro n
  induction n with
  | zero => intro c r h; simp [runAux_zero] at h
  | succ n ih =>
    intro c r h
    cases c with
    | expression pos =>
      simp only [runAux] at h ⊢
      rw [ReadExpressionAux] at h ⊢
      exact ih (.binary pos MIN_PRECEDENCE) r h
    | binary pos precedence =>
      simp only [runAux] at h ⊢
      rw [ReadBinaryExpressionAux] at h ⊢
      rw [← runAux_operand] at h ⊢
      cases hc : runAux ts n (Call.operand pos precedence) with
      | none => simp [hc] at h
      | some x =>
        rw [ih _ _ hc]
        rw [hc] at h
        rcases x with ⟨_ | expr, pos1⟩
        · exact h
        · exact ih (.loop expr pos1 precedence) r h
    | loop expr pos precedence =>
      simp only [runAux] at h ⊢
      rw [ReadBinaryExpression_whileAux] at h ⊢
      rcases hm : MatchOperator_precedence ts pos precedence with _ | _ | _
      · simpa [hm] using h
      · simpa [hm] using h
      · simp only [hm] at h ⊢
        rcases hro : ReadOperator ts pos with ⟨_ | op, pos1⟩
        · simpa [hro] using h
        · simp only [hro] at h ⊢
          rw [← runAux_operand] at h ⊢
          cases hc : runAux ts n (Call.operand pos1 precedence) with
          | none => simp [hc] at h
          | some x =>
            rw [ih _ _ hc]
            rw [hc] at h
            rcases x with ⟨_ | rhs, pos2⟩
            · exact h
            · exact ih (.loop (.BinaryExpression op expr rhs) pos2 precedence) r h
    | unary pos =>
      simp only [runAux] at h ⊢
      rw [ReadUnaryExpressionAux] at h ⊢
      rcases hm : MatchOperator_precedence ts pos MAX_PRECEDENCE with _ | _ | _
      · simpa [hm] using h
      · simp only [hm] at h ⊢
        exact ih (.value pos) r h
      · simp only [hm] at h ⊢
        rcases hro : ReadOperator ts pos with ⟨_ | op, pos1⟩
        · simpa [hro] using h
        · simp only [hro] at h ⊢
          cases hc : ReadValueAux ts n pos1 with
          | none => simp [hc] at h
          | some x =>
            rw [show ReadValueAux ts (n + 1) pos1 = some x from ih (.value pos1) x hc]
            simpa [hc] using h
    | value pos =>
      simp only [runAux] at h ⊢
      rw [ReadValueAux] at h ⊢
      split_ifs with h1 h2
      · simpa [h1] using h
      · simpa [h1, h2] using h
      · simp only [h1, h2] at h
        simp only [Bool.false_eq_true, if_false] at h
        rcases hro : ReadOperator ts pos with ⟨_ | op, pos1⟩
        · simpa [hro] using h
        · simp only [hro] at h ⊢
          cases hc : ReadExpressionAux ts n pos1 with
          | none => simp [hc] at h
          | some x =>
            rw [show ReadExpressionAux ts (n + 1) pos1 = some x from ih (.expression pos1) x hc]
            simpa [hc] using h

/-- More fuel does not change a result. -/
theorem runAux_mono (ts : List ScriptToken) (n m : Nat) (hnm : n ≤ m) (c : Call)
    (r : Reading Expression) (h : runAux ts n c = some r) : runAux ts m c = some r := by
  induction hnm with
  | refl => exact h
  | step _ ih => exact runAux_succ ts _ c r ih

/-! ## The relation holds of every result -/

theorem Reads_of_runAux (ts : List ScriptToken) :
    ∀ (n : Nat) (c : Call) (r : Reading Expression), runAux ts n c = some r → Reads ts c r := by
  intro n
  induction n with
  | zero => intro c r h; simp [runAux_zero] at h
  | succ n ih =>
    intro c r h
    cases c with
    | expression pos =>
      simp only [runAux] at h
      rw [ReadExpressionAux] at h
      exact .expression (ih (.binary pos MIN_PRECEDENCE) r h)
    | binary pos precedence =>
      simp only [runAux] at h
      rw [ReadBinaryExpressionAux, ← runAux_operand] at h
      cases hc : runAux ts n (Call.operand pos precedence) with
      | none => simp [hc] at h
      | some x =>
        rw [hc] at h
        rcases x with ⟨e | expr, pos1⟩
        · simp only [Option.some.injEq] at h
          subst h
          exact .binary_throw (ih _ _ hc)
        · exact .binary_loop (ih _ _ hc) (ih (.loop expr pos1 precedence) r h)
    | loop expr pos precedence =>
      simp only [runAux] at h
      rw [ReadBinaryExpression_whileAux] at h
      rcases hm : MatchOperator_precedence ts pos precedence with e | _ | _
      · simp only [hm, Option.some.injEq] at h
        subst h
        exact .loop_throw hm
      · simp only [hm, Option.some.injEq] at h
        subst h
        exact .loop_exit hm
      · simp only [hm] at h
        obtain ⟨op, hop, hk⟩ := MatchOperator_precedence_true ts pos precedence hm
        rw [ReadOperator_of_operator ts pos op hop hk] at h
        simp only [] at h
        rw [← runAux_operand] at h
        cases hc : runAux ts n (Call.operand (pos + 1) precedence) with
        | none => simp [hc] at h
        | some x =>
          rw [hc] at h
          rcases x with ⟨e | rhs, pos2⟩
          · simp only [Option.some.injEq] at h
            subst h
            exact .loop_rhs_throw hm hop (ih _ _ hc)
          · exact .loop_fold hm hop (ih _ _ hc) (ih (.loop _ pos2 precedence) r h)
    | unary pos =>
      simp only [runAux] at h
      rw [ReadUnaryExpressionAux] at h
      rcases hm : MatchOperator_precedence ts pos MAX_PRECEDENCE with e | _ | _
      · exact absurd hm (MatchOperator_precedence_MAX_ne_error ts pos e)
      · simp only [hm] at h
        exact .unary_value hm (ih (.value pos) r h)
      · simp only [hm] at h
        obtain ⟨op, hop, hk⟩ := MatchOperator_precedence_true ts pos _ hm
        rw [ReadOperator_of_operator ts pos op hop hk] at h
        simp only [] at h
        cases hc : ReadValueAux ts n (pos + 1) with
        | none => simp [hc] at h
        | some x =>
          rw [hc] at h
          rcases x with ⟨e | v, pos2⟩
          · simp only [Option.some.injEq] at h
            subst h
            exact .unary_throw hm hop (ih (.value (pos + 1)) _ hc)
          · simp only [Option.some.injEq] at h
            subst h
            exact .unary_op hm hop (ih (.value (pos + 1)) _ hc)
    | value pos =>
      simp only [runAux] at h
      rw [ReadValueAux] at h
      by_cases h1 : MatchLiteral ts pos = true
      · obtain ⟨t, ht, hl⟩ := (MatchLiteral_eq_true_iff ts pos).1 h1
        simp only [h1, if_true, ReadLiteral_of_literal ts pos t ht hl, Option.some.injEq] at h
        subst h
        exact .value_literal ht hl
      · have hnl : ∀ t, ts[pos]? = some t → ¬ t.IsLiteral := fun t ht hl =>
          h1 ((MatchLiteral_eq_true_iff ts pos).2 ⟨t, ht, hl⟩)
        simp only [h1] at h
        by_cases h2 : MatchOperator_op ts pos "(" = true
        · obtain ⟨o, ho, hk, -⟩ := (MatchOperator_op_eq_true_iff ts pos "(").1 h2
          simp only [h2, Bool.not_true, Bool.false_eq_true, if_false,
            ReadOperator_of_operator ts pos o ho hk] at h
          cases hc : ReadExpressionAux ts n (pos + 1) with
          | none => simp [hc] at h
          | some x =>
            rw [hc] at h
            have hx := ih (.expression (pos + 1)) _ hc
            rcases x with ⟨e | expr, pos2⟩
            · simp only [Option.some.injEq] at h
              subst h
              exact .value_inner_throw h2 hx
            · by_cases h3 : MatchOperator_op ts pos2 ")" = true
              · obtain ⟨cl, hcl, hkc, -⟩ := (MatchOperator_op_eq_true_iff ts pos2 ")").1 h3
                simp only [h3, if_true, ReadOperator_of_operator ts pos2 cl hcl hkc,
                  Option.some.injEq] at h
                subst h
                exact .value_bracket h2 ho hx h3 hcl
              · simp only [h3, Bool.false_eq_true, if_false, Option.some.injEq] at h
                subst h
                exact .value_unclosed h2 hx (by simpa using h3)
        · have h2f : MatchOperator_op ts pos "(" = false := by simpa using h2
          simp only [h2f, Bool.not_false, if_true, Bool.false_eq_true, if_false] at h
          cases hx : ts[pos]? with
          | none =>
            simp only [hx, Option.some.injEq] at h
            subst h
            exact .value_missing hx
          | some t =>
            simp only [hx, Option.some.injEq] at h
            subst h
            exact .value_unexpected hx (hnl t hx) h2f

/-! ## The iterator only advances -/

@[simp] theorem Call.operand_pos (pos precedence : Nat) :
    (Call.operand pos precedence).pos = pos := by
  unfold Call.operand; split_ifs <;> rfl

@[simp] theorem Call.operand_isLoop (pos precedence : Nat) :
    (Call.operand pos precedence).isLoop = false := by
  unfold Call.operand; split_ifs <;> rfl

theorem getElem?_some_lt (ts : List ScriptToken) (pos : Nat) (t : ScriptToken)
    (h : ts[pos]? = some t) : pos < ts.length := by
  by_contra hlt
  rw [List.getElem?_eq_none (by omega)] at h
  cases h

/-- A call leaves the iterator at or after its start, inside the input when it
started there, and strictly after its start when it returns a tree (the loop
apart, which may return the tree it was given). -/
theorem Reads_bounds (ts : List ScriptToken) (c : Call) (rp : Reading Expression)
    (h : Reads ts c rp) :
    c.pos ≤ rp.2 ∧ (c.pos ≤ ts.length → rp.2 ≤ ts.length) ∧
      (∀ e, rp.1 = .ok e → c.isLoop = false → c.pos < rp.2) := by
  induction h with
  | expression _ ih => simpa [Call.pos, Call.isLoop] using ih
  | binary_throw _ ih =>
    simp only [Call.operand_pos, Call.operand_isLoop] at ih
    simpa [Call.pos, Call.isLoop] using ih
  | binary_loop _ _ ih1 ih2 =>
    simp only [Call.operand_pos, Call.operand_isLoop] at ih1 ih2
    simp only [Call.pos, Call.isLoop] at ih1 ih2 ⊢
    have := ih1.2.2 _ rfl trivial
    refine ⟨by omega, fun hp => ih2.2.1 (ih1.2.1 hp), fun e _ _ => by omega⟩
  | loop_throw _ => simp [Call.pos, Call.isLoop]
  | loop_exit _ => simp [Call.pos, Call.isLoop]
  | loop_rhs_throw _ hop _ ih =>
    have := getElem?_some_lt _ _ _ hop
    simp only [Call.operand_pos, Call.operand_isLoop] at ih
    simp only [Call.pos, Call.isLoop] at ih ⊢
    refine ⟨by omega, fun _ => ih.2.1 (by omega), by simp⟩
  | loop_fold _ hop _ _ ih1 ih2 =>
    have := getElem?_some_lt _ _ _ hop
    simp only [Call.operand_pos, Call.operand_isLoop] at ih1 ih2
    simp only [Call.pos, Call.isLoop] at ih1 ih2 ⊢
    refine ⟨by omega, fun _ => ih2.2.1 (ih1.2.1 (by omega)), by simp⟩
  | unary_throw _ hop _ ih =>
    have := getElem?_some_lt _ _ _ hop
    simp only [Call.pos, Call.isLoop] at ih ⊢
    refine ⟨by omega, fun _ => ih.2.1 (by omega), by simp⟩
  | unary_op _ hop _ ih =>
    have := getElem?_some_lt _ _ _ hop
    simp only [Call.pos, Call.isLoop] at ih ⊢
    refine ⟨by omega, fun _ => ih.2.1 (by omega), fun _ _ _ => by omega⟩
  | unary_value _ _ ih => simpa [Call.pos, Call.isLoop] using ih
  | value_literal ht _ =>
    have := getElem?_some_lt _ _ _ ht
    simp only [Call.pos, Call.isLoop]
    refine ⟨by omega, fun _ => by omega, fun _ _ _ => by omega⟩
  | value_missing _ => simp [Call.pos, Call.isLoop]
  | value_unexpected _ _ _ => simp [Call.pos, Call.isLoop]
  | value_inner_throw hm _ ih =>
    obtain ⟨o, ho, -⟩ := (MatchOperator_op_eq_true_iff _ _ _).1 hm
    have := getElem?_some_lt _ _ _ ho
    simp only [Call.pos, Call.isLoop] at ih ⊢
    refine ⟨by omega, fun _ => ih.2.1 (by omega), by simp⟩
  | value_unclosed hm _ _ ih =>
    obtain ⟨o, ho, -⟩ := (MatchOperator_op_eq_true_iff _ _ _).1 hm
    have := getElem?_some_lt _ _ _ ho
    simp only [Call.pos, Call.isLoop] at ih ⊢
    refine ⟨by omega, fun _ => ih.2.1 (by omega), by simp⟩
  | value_bracket _ ho _ _ hc ih =>
    have := getElem?_some_lt _ _ _ ho
    have := getElem?_some_lt _ _ _ hc
    simp only [Call.pos, Call.isLoop] at ih ⊢
    refine ⟨by omega, fun _ => by omega, fun _ _ _ => by omega⟩

/-! ## Termination -/

theorem Call.need_operand_le (len pos precedence : Nat) :
    (Call.operand pos precedence).need len ≤ 13 * (len - pos) + 2 + (9 - precedence) := by
  unfold Call.operand MAX_PRECEDENCE
  split_ifs with h
  · simp only [Call.need]; omega
  · simp only [Call.need]; omega

/-- Fuel at least the depth `need` of a call yields a result. -/
theorem runAux_total_aux (ts : List ScriptToken) :
    ∀ (n : Nat) (c : Call), c.need ts.length ≤ n → ∃ r, runAux ts n c = some r := by
  intro n
  induction n with
  | zero =>
    intro c h
    cases c <;> simp [Call.need] at h
  | succ n ih =>
    intro c hn
    cases c with
    | expression pos =>
      simp only [runAux]
      rw [ReadExpressionAux]
      exact ih (.binary pos MIN_PRECEDENCE) (by simp only [Call.need, MIN_PRECEDENCE] at hn ⊢; omega)
    | binary pos precedence =>
      simp only [runAux]
      rw [ReadBinaryExpressionAux, ← runAux_operand]
      simp only [Call.need] at hn
      obtain ⟨x, hx⟩ := ih (Call.operand pos precedence)
        (by have := Call.need_operand_le ts.length pos precedence; omega)
      rw [hx]
      rcases x with ⟨e | expr, pos1⟩
      · exact ⟨_, rfl⟩
      · have hb := (Reads_bounds ts _ _ (Reads_of_runAux ts n _ _ hx)).1
        simp only [Call.operand_pos] at hb
        exact ih (.loop expr pos1 precedence) (by simp only [Call.need]; omega)
    | loop expr pos precedence =>
      simp only [runAux]
      rw [ReadBinaryExpression_whileAux]
      simp only [Call.need] at hn
      rcases hm : MatchOperator_precedence ts pos precedence with e | _ | _
      · exact ⟨_, rfl⟩
      · exact ⟨_, rfl⟩
      · obtain ⟨op, hop, hk⟩ := MatchOperator_precedence_true ts pos precedence hm
        have hlt := getElem?_some_lt ts pos op hop
        simp only [ReadOperator_of_operator ts pos op hop hk]
        rw [← runAux_operand]
        obtain ⟨x, hx⟩ := ih (Call.operand (pos + 1) precedence)
          (by have := Call.need_operand_le ts.length (pos + 1) precedence; omega)
        rw [hx]
        rcases x with ⟨e | rhs, pos2⟩
        · exact ⟨_, rfl⟩
        · have hb := (Reads_bounds ts _ _ (Reads_of_runAux ts n _ _ hx)).1
          simp only [Call.operand_pos] at hb
          exact ih (.loop _ pos2 precedence) (by simp only [Call.need]; omega)
    | unary pos =>
      simp only [runAux]
      rw [ReadUnaryExpressionAux]
      simp only [Call.need] at hn
      rcases hm : MatchOperator_precedence ts pos MAX_PRECEDENCE with e | _ | _
      · exact ⟨_, rfl⟩
      · exact ih (.value pos) (by simp only [Call.need]; omega)
      · obtain ⟨op, hop, hk⟩ := MatchOperator_precedence_true ts pos _ hm
        simp only [ReadOperator_of_operator ts pos op hop hk]
        obtain ⟨x, hx⟩ := ih (.value (pos + 1)) (by simp only [Call.need]; omega)
        simp only [runAux] at hx
        rw [hx]
        rcases x with ⟨e | v, pos2⟩ <;> exact ⟨_, rfl⟩
    | value pos =>
      simp only [runAux]
      rw [ReadValueAux]
      simp only [Call.need] at hn
      by_cases h1 : MatchLiteral ts pos = true
      · simp only [h1, if_true]
        rcases ReadLiteral ts pos with ⟨e | t, pos1⟩ <;> exact ⟨_, rfl⟩
      · simp only [h1, Bool.false_eq_true, if_false]
        by_cases h2 : MatchOperator_op ts pos "(" = true
        · obtain ⟨o, ho, hk, -⟩ := (MatchOperator_op_eq_true_iff ts pos "(").1 h2
          have hlt := getElem?_some_lt ts pos o ho
          simp only [h2, Bool.not_true, Bool.false_eq_true, if_false,
            ReadOperator_of_operator ts pos o ho hk]
          obtain ⟨x, hx⟩ := ih (.expression (pos + 1)) (by simp only [Call.need]; omega)
          simp only [runAux] at hx
          rw [hx]
          rcases x with ⟨e | expr, pos2⟩
          · exact ⟨_, rfl⟩
          · simp only []
            split_ifs
            · rcases ReadOperator ts pos2 with ⟨e | t, pos3⟩ <;> exact ⟨_, rfl⟩
            · exact ⟨_, rfl⟩
        · have h2f : MatchOperator_op ts pos "(" = false := by simpa using h2
          simp only [h2f, Bool.not_false, if_true]
          cases ts[pos]? <;> exact ⟨_, rfl⟩

theorem Call.need_le_fuelFor (ts : List ScriptToken) (c : Call) :
    c.need ts.length ≤ fuelFor ts := by
  unfold fuelFor
  have h : ∀ pos, 13 * (ts.length - pos) ≤ 13 * ts.length := fun pos =>
    Nat.mul_le_mul_left 13 (Nat.sub_le _ _)
  cases c with
  | expression pos => have := h pos; simp only [Call.need]; omega
  | binary pos precedence => have := h pos; simp only [Call.need]; omega
  | loop expr pos precedence => have := h pos; simp only [Call.need]; omega
  | unary pos => have := h pos; simp only [Call.need]; omega
  | value pos => have := h pos; simp only [Call.need]; omega

/-- The fuel of `run` suffices: `run` is the result of the call. -/
theorem runAux_total (ts : List ScriptToken) (c : Call) :
    runAux ts (fuelFor ts) c = some (run ts c) := by
  obtain ⟨r, hr⟩ := runAux_total_aux ts (fuelFor ts) c (Call.need_le_fuelFor ts c)
  simp [run, hr]

/-- Any fuel that yields a result yields the result of `run`. -/
theorem run_eq_of_runAux (ts : List ScriptToken) (n : Nat) (c : Call) (r : Reading Expression)
    (h : runAux ts n c = some r) : run ts c = r := by
  have h1 := runAux_total ts c
  rcases Nat.le_total n (fuelFor ts) with hle | hle
  · have h2 := runAux_mono ts n _ hle c r h
    rw [h1] at h2
    exact Option.some.inj h2
  · have h2 := runAux_mono ts _ n hle c _ h1
    rw [h] at h2
    exact (Option.some.inj h2).symm

/-- The relation holds of the result of `run`. -/
theorem Reads_run (ts : List ScriptToken) (c : Call) : Reads ts c (run ts c) :=
  Reads_of_runAux ts _ c _ (runAux_total ts c)

/-! ## Every rule of the relation is a path of the code -/

theorem runAux_of_Reads (ts : List ScriptToken) (c : Call) (r : Reading Expression)
    (h : Reads ts c r) : ∃ n, runAux ts n c = some r := by
  induction h with
  | @expression pos r _ ih =>
    obtain ⟨n, hn⟩ := ih
    refine ⟨n + 1, ?_⟩
    simp only [runAux] at hn ⊢
    rw [ReadExpressionAux]
    exact hn
  | @binary_throw pos precedence e pos1 _ ih =>
    obtain ⟨n, hn⟩ := ih
    refine ⟨n + 1, ?_⟩
    simp only [runAux]
    rw [ReadBinaryExpressionAux, ← runAux_operand, hn]
  | @binary_loop pos precedence expr pos1 r _ _ ih1 ih2 =>
    obtain ⟨n1, hn1⟩ := ih1
    obtain ⟨n2, hn2⟩ := ih2
    refine ⟨max n1 n2 + 1, ?_⟩
    have h1 := runAux_mono ts n1 (max n1 n2) (le_max_left _ _) _ _ hn1
    have h2 := runAux_mono ts n2 (max n1 n2) (le_max_right _ _) _ _ hn2
    simp only [runAux] at h2 ⊢
    rw [ReadBinaryExpressionAux, ← runAux_operand, h1]
    exact h2
  | @loop_throw expr pos precedence e hm =>
    refine ⟨1, ?_⟩
    simp only [runAux]
    rw [ReadBinaryExpression_whileAux, hm]
  | @loop_exit expr pos precedence hm =>
    refine ⟨1, ?_⟩
    simp only [runAux]
    rw [ReadBinaryExpression_whileAux, hm]
  | @loop_rhs_throw expr pos precedence op e pos2 hm hop _ ih =>
    obtain ⟨n, hn⟩ := ih
    obtain ⟨t, ht, hk⟩ := MatchOperator_precedence_true ts pos precedence hm
    refine ⟨n + 1, ?_⟩
    simp only [runAux]
    rw [ReadBinaryExpression_whileAux, hm]
    simp only [ReadOperator_of_operator ts pos t ht hk]
    rw [← runAux_operand, hn]
  | @loop_fold expr pos precedence op rhs pos2 r hm hop _ _ ih1 ih2 =>
    obtain ⟨n1, hn1⟩ := ih1
    obtain ⟨n2, hn2⟩ := ih2
    obtain ⟨t, ht, hk⟩ := MatchOperator_precedence_true ts pos precedence hm
    have hto : t = op := by rw [ht] at hop; exact Option.some.inj hop
    subst hto
    refine ⟨max n1 n2 + 1, ?_⟩
    have h1 := runAux_mono ts n1 (max n1 n2) (le_max_left _ _) _ _ hn1
    have h2 := runAux_mono ts n2 (max n1 n2) (le_max_right _ _) _ _ hn2
    simp only [runAux] at h2 ⊢
    rw [ReadBinaryExpression_whileAux, hm]
    simp only [ReadOperator_of_operator ts pos t ht hk]
    rw [← runAux_operand, h1]
    exact h2
  | @unary_throw pos op e pos2 hm hop _ ih =>
    obtain ⟨n, hn⟩ := ih
    obtain ⟨t, ht, hk⟩ := MatchOperator_precedence_true ts pos _ hm
    refine ⟨n + 1, ?_⟩
    simp only [runAux] at hn ⊢
    rw [ReadUnaryExpressionAux, hm]
    simp only [ReadOperator_of_operator ts pos t ht hk, hn]
  | @unary_op pos op value pos2 hm hop _ ih =>
    obtain ⟨n, hn⟩ := ih
    obtain ⟨t, ht, hk⟩ := MatchOperator_precedence_true ts pos _ hm
    have hto : t = op := by rw [ht] at hop; exact Option.some.inj hop
    subst hto
    refine ⟨n + 1, ?_⟩
    simp only [runAux] at hn ⊢
    rw [ReadUnaryExpressionAux, hm]
    simp only [ReadOperator_of_operator ts pos t ht hk, hn]
  | @unary_value pos r hm _ ih =>
    obtain ⟨n, hn⟩ := ih
    refine ⟨n + 1, ?_⟩
    simp only [runAux] at hn ⊢
    rw [ReadUnaryExpressionAux, hm]
    exact hn
  | @value_literal pos t ht hl =>
    refine ⟨1, ?_⟩
    simp only [runAux]
    rw [ReadValueAux]
    simp only [(MatchLiteral_eq_true_iff ts pos).2 ⟨t, ht, hl⟩, if_true,
      ReadLiteral_of_literal ts pos t ht hl]
  | @value_missing pos hx =>
    refine ⟨1, ?_⟩
    simp only [runAux]
    rw [ReadValueAux]
    simp [MatchLiteral, MatchOperator_op, hx]
  | @value_unexpected pos t ht hl hm =>
    refine ⟨1, ?_⟩
    have h1 : MatchLiteral ts pos = false := by
      rw [Bool.eq_false_iff]
      intro h1
      obtain ⟨u, hu, hul⟩ := (MatchLiteral_eq_true_iff ts pos).1 h1
      rw [ht] at hu
      exact hl (Option.some.inj hu ▸ hul)
    simp only [runAux]
    rw [ReadValueAux]
    simp [h1, hm, ht]
  | @value_inner_throw pos e pos2 hm _ ih =>
    obtain ⟨n, hn⟩ := ih
    obtain ⟨o, ho, hk, htx⟩ := (MatchOperator_op_eq_true_iff ts pos "(").1 hm
    have h1 : MatchLiteral ts pos = false := by
      simp [MatchLiteral, ho, hk]
    refine ⟨n + 1, ?_⟩
    simp only [runAux] at hn ⊢
    rw [ReadValueAux]
    simp [h1, hm, ReadOperator_of_operator ts pos o ho hk, hn]
  | @value_unclosed pos expr pos2 hm _ hc ih =>
    obtain ⟨n, hn⟩ := ih
    obtain ⟨o, ho, hk, htx⟩ := (MatchOperator_op_eq_true_iff ts pos "(").1 hm
    have h1 : MatchLiteral ts pos = false := by
      simp [MatchLiteral, ho, hk]
    refine ⟨n + 1, ?_⟩
    simp only [runAux] at hn ⊢
    rw [ReadValueAux]
    simp [h1, hm, ReadOperator_of_operator ts pos o ho hk, hn, hc]
  | @value_bracket pos open_ expr pos2 close hm ho _ hc hcl ih =>
    obtain ⟨n, hn⟩ := ih
    obtain ⟨o, ho2, hk, htx⟩ := (MatchOperator_op_eq_true_iff ts pos "(").1 hm
    obtain ⟨c2, hc2, hkc, -⟩ := (MatchOperator_op_eq_true_iff ts pos2 ")").1 hc
    have e1 : o = open_ := by rw [ho2] at ho; exact Option.some.inj ho
    have e2 : c2 = close := by rw [hc2] at hcl; exact Option.some.inj hcl
    subst e1 e2
    have h1 : MatchLiteral ts pos = false := by
      simp [MatchLiteral, ho2, hk]
    refine ⟨n + 1, ?_⟩
    simp only [runAux] at hn ⊢
    rw [ReadValueAux]
    simp [h1, hm, ReadOperator_of_operator ts pos o ho2 hk, hn, hc,
      ReadOperator_of_operator ts pos2 c2 hc2 hkc]

/-- The relation determines the result of `run`. -/
theorem run_eq_of_Reads (ts : List ScriptToken) (c : Call) (r : Reading Expression)
    (h : Reads ts c r) : run ts c = r := by
  obtain ⟨n, hn⟩ := runAux_of_Reads ts c r h
  exact run_eq_of_runAux ts n c r hn

theorem run_eq_iff (ts : List ScriptToken) (c : Call) (r : Reading Expression) :
    run ts c = r ↔ Reads ts c r :=
  ⟨fun h => h ▸ Reads_run ts c, run_eq_of_Reads ts c r⟩

/-! ## Round trip -/

theorem consumed_self (ts : List ScriptToken) (a : Nat) : consumed ts a a = [] := by
  simp [consumed]

theorem consumed_append (ts : List ScriptToken) (a b c : Nat) (hab : a ≤ b) (hbc : b ≤ c) :
    consumed ts a b ++ consumed ts b c = consumed ts a c := by
  unfold consumed
  have h1 : c - a = (b - a) + (c - b) := by omega
  have h2 : ts.drop b = (ts.drop a).drop (b - a) := by
    rw [List.drop_drop]; congr 1; omega
  rw [h1, List.take_add, h2]

theorem consumed_single (ts : List ScriptToken) (a : Nat) (t : ScriptToken)
    (h : ts[a]? = some t) : consumed ts a (a + 1) = [t] := by
  have hlt := getElem?_some_lt ts a t h
  have ht : ts[a] = t := by
    rw [List.getElem?_eq_getElem hlt] at h
    exact Option.some.inj h
  unfold consumed
  rw [List.drop_eq_getElem_cons hlt, ht]
  simp

theorem consumed_all (ts : List ScriptToken) : consumed ts 0 ts.length = ts := by
  simp [consumed]

@[simp] theorem Call.operand_folded (pos precedence : Nat) :
    (Call.operand pos precedence).folded = [] := by
  unfold Call.operand; split_ifs <;> rfl

/-- The in-order tokens of a returned tree are the tokens folded into the tree
the call was handed, followed by the tokens the call consumed. -/
theorem Reads_inorder (ts : List ScriptToken) (c : Call) (rp : Reading Expression)
    (h : Reads ts c rp) :
    ∀ e, rp.1 = .ok e →
      e.getTokenArray .InOrder = c.folded ++ consumed ts c.pos rp.2 := by
  induction h with
  | expression _ ih => simpa [Call.pos, Call.folded] using ih
  | binary_throw _ _ => intro e he; cases he
  | @binary_loop pos precedence expr pos1 r h1 h2 ih1 ih2 =>
    intro e he
    have b1 := (Reads_bounds ts _ _ h1).1
    have b2 := (Reads_bounds ts _ _ h2).1
    have e1 := ih1 expr rfl
    have e2 := ih2 e he
    simp only [Call.operand_pos, Call.operand_folded] at b1 e1
    simp only [Call.pos, Call.folded, List.nil_append] at b2 e1 e2 ⊢
    rw [e2, e1, consumed_append ts _ _ _ b1 b2]
  | loop_throw _ => intro e he; cases he
  | loop_exit _ =>
    intro e he
    cases he
    simp [Call.pos, Call.folded, consumed_self]
  | loop_rhs_throw _ _ _ _ => intro e he; cases he
  | @loop_fold expr pos precedence op rhs pos2 r hm hop h1 h2 ih1 ih2 =>
    intro e he
    have b1 := (Reads_bounds ts _ _ h1).1
    have b2 := (Reads_bounds ts _ _ h2).1
    have e1 := ih1 rhs rfl
    have e2 := ih2 e he
    simp only [Call.operand_pos, Call.operand_folded] at b1 e1
    simp only [Call.pos, Call.folded, List.nil_append, Expression.getTokenArray] at b2 e1 e2 ⊢
    rw [e2, e1, ← consumed_single ts pos op hop, List.append_assoc, List.append_assoc,
      consumed_append ts _ _ _ b1 b2, consumed_append ts _ _ _ (Nat.le_succ pos) (by omega)]
  | unary_throw _ _ _ _ => intro e he; cases he
  | @unary_op pos op value pos2 hm hop h1 ih =>
    intro e he
    cases he
    have b1 := (Reads_bounds ts _ _ h1).1
    have e1 := ih value rfl
    simp only [Call.pos, Call.folded, List.nil_append, Expression.getTokenArray] at b1 e1 ⊢
    rw [e1, ← consumed_single ts pos op hop, consumed_append ts _ _ _ (Nat.le_succ pos) b1]
  | unary_value _ _ ih => simpa [Call.pos, Call.folded] using ih
  | @value_literal pos t ht _ =>
    intro e he
    cases he
    simp [Call.pos, Call.folded, Expression.getTokenArray, consumed_single ts pos t ht]
  | value_missing _ => intro e he; cases he
  | value_unexpected _ _ _ => intro e he; cases he
  | value_inner_throw _ _ _ => intro e he; cases he
  | value_unclosed _ _ _ _ => intro e he; cases he
  | @value_bracket pos open_ expr pos2 close hm ho h1 hc hcl ih =>
    intro e he
    cases he
    have b1 := (Reads_bounds ts _ _ h1).1
    have e1 := ih expr rfl
    simp only [Call.pos, Call.folded, List.nil_append, Expression.getTokenArray] at b1 e1 ⊢
    rw [e1, ← consumed_single ts pos open_ ho, ← consumed_single ts pos2 close hcl,
      consumed_append ts _ _ _ (Nat.le_succ pos) b1,
      consumed_append ts _ _ _ (by omega) (Nat.le_succ pos2)]

/-- At the end of the input every operand is missing. -/
theorem Reads_operand_missing (ts : List ScriptToken) (p : Nat) (h : ts[p]? = none) :
    ∀ (d precedence : Nat), precedence + d = MAX_PRECEDENCE →
      Reads ts (Call.operand p precedence)
        (.error (.ScriptSyntaxException "Missing operand"), p) := by
  intro d
  induction d with
  | zero =>
    intro precedence hp
    have hc : Call.operand p precedence = .unary p := by simp [Call.operand]; omega
    rw [hc]
    exact .unary_value (by simp [MatchOperator_precedence, h]) (.value_missing h)
  | succ d ih =>
    intro precedence hp
    have hc : Call.operand p precedence = .binary p (precedence + 1) := by
      simp [Call.operand]; omega
    rw [hc]
    exact .binary_throw (ih (precedence + 1) (by omega))

/-- At the end of the input `ReadExpression` throws "Missing operand". -/
theorem Reads_expression_missing (ts : List ScriptToken) (p : Nat) (h : ts[p]? = none) :
    Reads ts (.expression p) (.error (.ScriptSyntaxException "Missing operand"), p) :=
  .expression (.binary_throw
    (Reads_operand_missing ts p h MAX_PRECEDENCE MIN_PRECEDENCE (by simp [MIN_PRECEDENCE])))

/-- C1 (round trip): whenever `ReadExpression` returns a tree, it has consumed
at least one token and stopped inside the input, and the in-order tokens of the
tree are exactly the tokens consumed, in order; when it started at the first
token and consumed every token they are the whole input. -/
theorem ReadExpression_round_trip (ts : List ScriptToken) (pos : Nat) (tree : Expression)
    (pos1 : Nat) (h : ReadExpression ts pos = (.ok tree, pos1)) :
    pos < pos1 ∧ pos1 ≤ ts.length ∧
      tree.getTokenArray .InOrder = consumed ts pos pos1 ∧
      (pos = 0 → pos1 = ts.length → tree.getTokenArray .InOrder = ts) := by
  have hr : Reads ts (.expression pos) (.ok tree, pos1) := (run_eq_iff ts _ _).1 h
  have hi := Reads_inorder ts _ _ hr tree rfl
  have hb := Reads_bounds ts _ _ hr
  simp only [Call.folded, Call.pos, Call.isLoop, List.nil_append] at hi hb
  have hlt : pos < ts.length := by
    by_contra hge
    have hm := run_eq_of_Reads ts _ _
      (Reads_expression_missing ts pos (List.getElem?_eq_none (by omega)))
    have h2 : run ts (.expression pos) = (.ok tree, pos1) := h
    rw [hm] at h2
    cases h2
  refine ⟨hb.2.2 tree rfl trivial, hb.2.1 (by omega), hi, fun h0 h1 => ?_⟩
  rw [hi, h0, h1, consumed_all]

/-- Witness of C1: the input `( a + b ) * c`, read from its first token. -/
theorem ReadExpression_round_trip_witness :
    ReadExpression [tokOp "(", tokA, tokOp "+", tokB, tokOp ")", tokOp "*", tokC] 0 =
        (.ok (.BinaryExpression (tokOp "*")
          (.BracketedExpression (tokOp "(")
            (.BinaryExpression (tokOp "+") (.LiteralValue tokA) (.LiteralValue tokB))
            (tokOp ")"))
          (.LiteralValue tokC)), 7) ∧
      Expression.getTokenArray .InOrder (.BinaryExpression (tokOp "*")
          (.BracketedExpression (tokOp "(")
            (.BinaryExpression (tokOp "+") (.LiteralValue tokA) (.LiteralValue tokB))
            (tokOp ")"))
          (.LiteralValue tokC)) =
        [tokOp "(", tokA, tokOp "+", tokB, tokOp ")", tokOp "*", tokC] :=
  ⟨by decide,
    (ReadExpression_round_trip
      [tokOp "(", tokA, tokOp "+", tokB, tokOp ")", tokOp "*", tokC] 0 _ 7
      (by decide)).2.2.2 rfl rfl⟩

/-! ## Precedence climbing -/

theorem MatchOperator_precedence_at (ts : List ScriptToken) (pos : Nat) (t : ScriptToken)
    (h : ts[pos]? = some t) (l : Nat) :
    MatchOperator_precedence ts pos l = MatchOperator_precedence [t] 0 l := by
  simp [MatchOperator_precedence, h]

theorem MatchOperator_precedence_none (ts : List ScriptToken) (pos : Nat)
    (h : ts[pos]? = none) (l : Nat) : MatchOperator_precedence ts pos l = .ok false := by
  simp [MatchOperator_precedence, h]

theorem MatchOperator_precedence_not_operator (ts : List ScriptToken) (pos : Nat)
    (t : ScriptToken) (h : ts[pos]? = some t) (hk : t.Kind ≠ .Operator) (l : Nat) :
    MatchOperator_precedence ts pos l = .ok false := by
  simp [MatchOperator_precedence, h, hk]

theorem MatchOperator_precedence_level (ts : List ScriptToken) (pos l : Nat)
    (hl : l ≤ MAX_PRECEDENCE) :
    MatchOperator_precedence ts pos l = .ok true ∨
      MatchOperator_precedence ts pos l = .ok false := by
  unfold MAX_PRECEDENCE at hl
  unfold MatchOperator_precedence
  cases ts[pos]? with
  | none => simp
  | some t =>
    by_cases hk : t.Kind = .Operator
    · interval_cases l <;> simp [hk] <;> tauto
    · simp [hk]

theorem NoOperatorFrom_none (ts : List ScriptToken) (pos : Nat) (h : ts[pos]? = none)
    (level : Nat) : NoOperatorFrom ts pos level :=
  fun l _ _ => MatchOperator_precedence_none ts pos h l

theorem NoOperatorFrom_token (ts : List ScriptToken) (pos : Nat) (t : ScriptToken)
    (h : ts[pos]? = some t) (level : Nat)
    (hn : ∀ l, level ≤ l → l ≤ MAX_PRECEDENCE → ¬ t.BindsAt l) :
    NoOperatorFrom ts pos level := by
  intro l h1 h2
  rcases MatchOperator_precedence_level ts pos l h2 with hm | hm
  · rw [MatchOperator_precedence_at ts pos t h] at hm
    exact absurd hm (hn l h1 h2)
  · exact hm

theorem NoOperatorFrom_mono (ts : List ScriptToken) (pos : Nat) (k l : Nat) (hkl : k ≤ l)
    (h : NoOperatorFrom ts pos k) : NoOperatorFrom ts pos l :=
  fun m h1 h2 => h m (le_trans hkl h1) h2

theorem NoOperatorFrom_of_FoldsAt (ts : List ScriptToken) (pos : Nat) (t : ScriptToken)
    (h : ts[pos]? = some t) (k : Nat) (hf : t.FoldsAt k) : NoOperatorFrom ts pos (k + 1) :=
  NoOperatorFrom_token ts pos t h (k + 1) (fun l h1 h2 => hf.2 l h1 h2)

theorem ScriptToken.exists_FoldsAt_aux (t : ScriptToken) :
    ∀ (d l : Nat), l + d = MAX_PRECEDENCE →
      (∃ m, l ≤ m ∧ m ≤ MAX_PRECEDENCE ∧ t.BindsAt m) →
      ∃ k, l ≤ k ∧ k ≤ MAX_PRECEDENCE ∧ t.FoldsAt k := by
  intro d
  induction d with
  | zero =>
    intro l hl ⟨m, h1, h2, h3⟩
    have hm : m = l := by omega
    subst hm
    exact ⟨m, le_refl _, h2, h3, fun k h4 h5 => by omega⟩
  | succ d ih =>
    intro l hl ⟨m, h1, h2, h3⟩
    by_cases hex : ∃ m, l + 1 ≤ m ∧ m ≤ MAX_PRECEDENCE ∧ t.BindsAt m
    · obtain ⟨k, hk1, hk2, hk3⟩ := ih (l + 1) (by omega) hex
      exact ⟨k, by omega, hk2, hk3⟩
    · have hm : m = l := by
        by_contra hne
        exact hex ⟨m, by omega, h2, h3⟩
      subst hm
      exact ⟨m, le_refl _, h2, h3, fun k h4 h5 h6 => hex ⟨k, h4, h5, h6⟩⟩

/-- An operator token that binds at some level has a highest such level. -/
theorem ScriptToken.exists_FoldsAt (t : ScriptToken) (l : Nat) (hl : l ≤ MAX_PRECEDENCE)
    (hb : t.BindsAt l) : ∃ k, l ≤ k ∧ k ≤ MAX_PRECEDENCE ∧ t.FoldsAt k :=
  t.exists_FoldsAt_aux (MAX_PRECEDENCE - l) l (by omega) ⟨l, le_refl _, hl, hb⟩

theorem ScriptToken.BindsAt_operator (t : ScriptToken) (l : Nat) (h : t.BindsAt l) :
    t.Kind = .Operator := by
  obtain ⟨u, hu, hk⟩ := MatchOperator_precedence_true [t] 0 l h
  simp at hu
  rw [hu]
  exact hk

theorem ScriptToken.IsLiteral_not_operator (t : ScriptToken) (h : t.IsLiteral) :
    t.Kind ≠ .Operator := by
  unfold ScriptToken.IsLiteral at h
  rcases h with h | h | h | h | h | h <;> simp [h]

theorem MatchOperator_precedence_of_BindsAt (ts : List ScriptToken) (pos : Nat)
    (t : ScriptToken) (h : ts[pos]? = some t) (l : Nat) (hb : t.BindsAt l) :
    MatchOperator_precedence ts pos l = .ok true := by
  rw [MatchOperator_precedence_at ts pos t h]
  exact hb

theorem Call.operand_of_lt (pos precedence : Nat) (h : precedence < MAX_PRECEDENCE) :
    Call.operand pos precedence = .binary pos (precedence + 1) := by
  simp [Call.operand, h]

theorem Call.operand_of_not_lt (pos precedence : Nat) (h : ¬ precedence < MAX_PRECEDENCE) :
    Call.operand pos precedence = .unary pos := by
  simp [Call.operand, h]

/-- A unary expression that is followed by no operator of the levels above
`precedence` is read as the operand of that level. -/
theorem Reads_operand_of_unary (ts : List ScriptToken) (pos : Nat) (e : Expression) (p : Nat)
    (h : Reads ts (.unary pos) (.ok e, p)) :
    ∀ (d precedence : Nat), precedence + d = MAX_PRECEDENCE →
      NoOperatorFrom ts p (precedence + 1) →
      Reads ts (Call.operand pos precedence) (.ok e, p) := by
  intro d
  induction d with
  | zero =>
    intro precedence hp _
    rw [Call.operand_of_not_lt pos precedence (by omega)]
    exact h
  | succ d ih =>
    intro precedence hp hno
    rw [Call.operand_of_lt pos precedence (by omega)]
    exact .binary_loop (ih (precedence + 1) (by omega)
        (NoOperatorFrom_mono ts p _ _ (Nat.le_succ _) hno))
      (.loop_exit (hno (precedence + 1) (le_refl _) (by omega)))

/-- A binary expression of level `k` that is followed by no operator of the
levels from `precedence` up to `k` is read as a binary expression of level
`precedence`. -/
theorem Reads_binary_climb (ts : List ScriptToken) (pos k : Nat) (e : Expression) (p : Nat)
    (hk : k ≤ MAX_PRECEDENCE) (h : Reads ts (.binary pos k) (.ok e, p)) :
    ∀ (d precedence : Nat), precedence + d = k →
      (∀ l, precedence ≤ l → l < k → MatchOperator_precedence ts p l = .ok false) →
      Reads ts (.binary pos precedence) (.ok e, p) := by
  intro d
  induction d with
  | zero =>
    intro precedence hp _
    have : precedence = k := by omega
    subst this
    exact h
  | succ d ih =>
    intro precedence hp hno
    refine .binary_loop ?_ (.loop_exit (hno precedence (le_refl _) (by omega)))
    rw [Call.operand_of_lt pos precedence (by omega)]
    exact ih (precedence + 1) (by omega) (fun l h1 h2 => hno l (by omega) h2)

/-- One turn of the loop of level `k`, on an operator that binds at `k` and a
unary right operand followed by no operator of a higher level. -/
theorem Reads_loop_fold_unary (ts : List ScriptToken) (expr : Expression) (p1 k : Nat)
    (op : ScriptToken) (e2 : Expression) (p2 : Nat) (r : Reading Expression)
    (hk : k ≤ MAX_PRECEDENCE) (hop : ts[p1]? = some op) (hb : op.BindsAt k)
    (h2 : Reads ts (.unary (p1 + 1)) (.ok e2, p2)) (hno : NoOperatorFrom ts p2 (k + 1))
    (hr : Reads ts (.loop (.BinaryExpression op expr e2) p2 k) r) :
    Reads ts (.loop expr p1 k) r :=
  .loop_fold (MatchOperator_precedence_of_BindsAt ts p1 op hop k hb) hop
    (Reads_operand_of_unary ts (p1 + 1) e2 p2 h2 (MAX_PRECEDENCE - k) k (by omega) hno) hr

/-- Two unary operands around an operator whose highest level is `k` are
folded by the loop of level `k`. -/
theorem Reads_binary_fold (ts : List ScriptToken) (pos : Nat) (e1 : Expression) (p1 k : Nat)
    (op : ScriptToken) (e2 : Expression) (p2 : Nat) (r : Reading Expression)
    (hk : k ≤ MAX_PRECEDENCE) (h1 : Reads ts (.unary pos) (.ok e1, p1))
    (hop : ts[p1]? = some op) (hf : op.FoldsAt k)
    (h2 : Reads ts (.unary (p1 + 1)) (.ok e2, p2)) (hno : NoOperatorFrom ts p2 (k + 1))
    (hr : Reads ts (.loop (.BinaryExpression op e1 e2) p2 k) r) :
    Reads ts (.binary pos k) r :=
  .binary_loop
    (Reads_operand_of_unary ts pos e1 p1 h1 (MAX_PRECEDENCE - k) k (by omega)
      (NoOperatorFrom_of_FoldsAt ts p1 op hop k hf))
    (Reads_loop_fold_unary ts e1 p1 k op e2 p2 r hk hop hf.1 h2 hno hr)

/-- A binary expression of some level that ends where no operator follows is
the whole expression. -/
theorem Reads_expression_of_binary (ts : List ScriptToken) (pos k : Nat) (e : Expression)
    (p : Nat) (hk : k ≤ MAX_PRECEDENCE) (h : Reads ts (.binary pos k) (.ok e, p))
    (hno : NoOperatorFrom ts p 0) : Reads ts (.expression pos) (.ok e, p) :=
  .expression (Reads_binary_climb ts pos k e p hk h k MIN_PRECEDENCE
    (by simp [MIN_PRECEDENCE]) (fun l _ h2 => hno l (Nat.zero_le _) (by omega)))

/-- A literal token is a unary expression. -/
theorem Reads_unary_literal (ts : List ScriptToken) (pos : Nat) (a : ScriptToken)
    (h : ts[pos]? = some a) (ha : a.IsLiteral) :
    Reads ts (.unary pos) (.ok (.LiteralValue a), pos + 1) :=
  .unary_value
    (MatchOperator_precedence_not_operator ts pos a h (a.IsLiteral_not_operator ha) MAX_PRECEDENCE)
    (.value_literal h ha)

theorem ScriptToken.BindsAt_congr (t u : ScriptToken) (hk : t.Kind = u.Kind)
    (ht : t.Text = u.Text) (l : Nat) : t.BindsAt l ↔ u.BindsAt l := by
  simp [ScriptToken.BindsAt, MatchOperator_precedence, hk, ht]

theorem ScriptToken.FoldsAt_congr (t u : ScriptToken) (hk : t.Kind = u.Kind)
    (ht : t.Text = u.Text) (k : Nat) (h : t.FoldsAt k) : u.FoldsAt k :=
  ⟨(t.BindsAt_congr u hk ht k).1 h.1, fun l h1 h2 h3 =>
    h.2 l h1 h2 ((t.BindsAt_congr u hk ht l).2 h3)⟩

theorem ScriptToken.BindsAt_of_binaryOperatorText (t : ScriptToken) (hk : t.Kind = .Operator)
    (ht : t.Text ∈ binaryOperatorTexts) : ∃ l, l ≤ 8 ∧ t.BindsAt l := by
  simp only [binaryOperatorTexts, List.mem_cons, List.mem_singleton, List.not_mem_nil,
    or_false] at ht
  rcases ht with h | h | h | h | h | h | h | h | h | h | h | h | h | h | h | h
  · exact ⟨0, by decide, by simp [ScriptToken.BindsAt, MatchOperator_precedence, hk, h]⟩
  · exact ⟨1, by decide, by simp [ScriptToken.BindsAt, MatchOperator_precedence, hk, h]⟩
  · exact ⟨2, by decide, by simp [ScriptToken.BindsAt, MatchOperator_precedence, hk, h]⟩
  · exact ⟨3, by decide, by simp [ScriptToken.BindsAt, MatchOperator_precedence, hk, h]⟩
  · exact ⟨4, by decide, by simp [ScriptToken.BindsAt, MatchOperator_precedence, hk, h]⟩
  · exact ⟨5, by decide, by simp [ScriptToken.BindsAt, MatchOperator_precedence, hk, h]⟩
  · exact ⟨5, by decide, by simp [ScriptToken.BindsAt, MatchOperator_precedence, hk, h]⟩
  · exact ⟨6, by decide, by simp [ScriptToken.BindsAt, MatchOperator_precedence, hk, h]⟩
  · exact ⟨6, by decide, by simp [ScriptToken.BindsAt, MatchOperator_precedence, hk, h]⟩
  · exact ⟨6, by decide, by simp [ScriptToken.BindsAt, MatchOperator_precedence, hk, h]⟩
  · exact ⟨6, by decide, by simp [ScriptToken.BindsAt, MatchOperator_precedence, hk, h]⟩
  · exact ⟨7, by decide, by simp [ScriptToken.BindsAt, MatchOperator_precedence, hk, h]⟩
  · exact ⟨7, by decide, by simp [ScriptToken.BindsAt, MatchOperator_precedence, hk, h]⟩
  · exact ⟨8, by decide, by simp [ScriptToken.BindsAt, MatchOperator_precedence, hk, h]⟩
  · exact ⟨8, by decide, by simp [ScriptToken.BindsAt, MatchOperator_precedence, hk, h]⟩
  · exact ⟨8, by decide, by simp [ScriptToken.BindsAt, MatchOperator_precedence, hk, h]⟩

theorem ScriptToken.BindsAt_of_unaryOperatorText (t : ScriptToken) (hk : t.Kind = .Operator)
    (ht : t.Text ∈ unaryOperatorTexts) : t.BindsAt MAX_PRECEDENCE := by
  simp only [unaryOperatorTexts, List.mem_cons, List.mem_singleton, List.not_mem_nil,
    or_false] at ht
  rcases ht with h | h | h <;>
    simp [ScriptToken.BindsAt, MatchOperator_precedence, MAX_PRECEDENCE, hk, h]

/-- The highest level of an operator token of the levels 0 to 8. -/
theorem ScriptToken.exists_FoldsAt_of_binaryOperatorText (t : ScriptToken)
    (hk : t.Kind = .Operator) (ht : t.Text ∈ binaryOperatorTexts) :
    ∃ k, k ≤ MAX_PRECEDENCE ∧ t.FoldsAt k := by
  obtain ⟨l, hl, hb⟩ := t.BindsAt_of_binaryOperatorText hk ht
  obtain ⟨k, -, hk2, hk3⟩ := t.exists_FoldsAt l (by unfold MAX_PRECEDENCE; omega) hb
  exact ⟨k, hk2, hk3⟩

/-- Two operands around one operator. -/
theorem Reads_two_operands (ts : List ScriptToken) (pos : Nat) (e1 : Expression) (p1 k : Nat)
    (op : ScriptToken) (e2 : Expression) (p2 : Nat)
    (hk : k ≤ MAX_PRECEDENCE) (h1 : Reads ts (.unary pos) (.ok e1, p1))
    (hop : ts[p1]? = some op) (hf : op.FoldsAt k)
    (h2 : Reads ts (.unary (p1 + 1)) (.ok e2, p2)) (hno : NoOperatorFrom ts p2 0) :
    Reads ts (.expression pos) (.ok (.BinaryExpression op e1 e2), p2) :=
  Reads_expression_of_binary ts pos k _ p2 hk
    (Reads_binary_fold ts pos e1 p1 k op e2 p2 _ hk h1 hop hf h2
      (NoOperatorFrom_mono ts p2 0 _ (Nat.zero_le _) hno)
      (.loop_exit (hno k (Nat.zero_le _) hk)))
    hno

/-- Three operands, the second operator folding at a level not above the
first: the first operator is folded first. -/
theorem Reads_three_operands_left (ts : List ScriptToken) (pos : Nat)
    (e1 : Expression) (p1 k1 : Nat) (op1 : ScriptToken) (e2 : Expression) (p2 k2 : Nat)
    (op2 : ScriptToken) (e3 : Expression) (p3 : Nat)
    (hk1 : k1 ≤ MAX_PRECEDENCE) (h21 : k2 ≤ k1)
    (h1 : Reads ts (.unary pos) (.ok e1, p1))
    (hop1 : ts[p1]? = some op1) (hf1 : op1.FoldsAt k1)
    (h2 : Reads ts (.unary (p1 + 1)) (.ok e2, p2))
    (hop2 : ts[p2]? = some op2) (hf2 : op2.FoldsAt k2)
    (h3 : Reads ts (.unary (p2 + 1)) (.ok e3, p3)) (hno : NoOperatorFrom ts p3 0) :
    Reads ts (.expression pos)
      (.ok (.BinaryExpression op2 (.BinaryExpression op1 e1 e2) e3), p3) := by
  have hno2 : NoOperatorFrom ts p2 (k2 + 1) := NoOperatorFrom_of_FoldsAt ts p2 op2 hop2 k2 hf2
  have hno3 : ∀ k, NoOperatorFrom ts p3 k := fun k =>
    NoOperatorFrom_mono ts p3 0 k (Nat.zero_le _) hno
  rcases Nat.eq_or_lt_of_le h21 with heq | hlt
  · subst heq
    exact Reads_expression_of_binary ts pos k2 _ p3 hk1
      (Reads_binary_fold ts pos e1 p1 k2 op1 e2 p2 _ hk1 h1 hop1 hf1 h2 hno2
        (Reads_loop_fold_unary ts _ p2 k2 op2 e3 p3 _ hk1 hop2 hf2.1 h3 (hno3 _)
          (.loop_exit (hno k2 (Nat.zero_le _) hk1))))
      hno
  · have hb1 : Reads ts (.binary pos k1) (.ok (.BinaryExpression op1 e1 e2), p2) :=
      Reads_binary_fold ts pos e1 p1 k1 op1 e2 p2 _ hk1 h1 hop1 hf1 h2
        (NoOperatorFrom_mono ts p2 _ _ (by omega) hno2)
        (.loop_exit (hno2 k1 (by omega) hk1))
    have hb2 : Reads ts (.binary pos (k2 + 1)) (.ok (.BinaryExpression op1 e1 e2), p2) :=
      Reads_binary_climb ts pos k1 _ p2 hk1 hb1 (k1 - (k2 + 1)) (k2 + 1) (by omega)
        (fun l h4 h5 => hno2 l h4 (by omega))
    have hk2 : k2 < MAX_PRECEDENCE := by omega
    have hb3 : Reads ts (.binary pos k2)
        (.ok (.BinaryExpression op2 (.BinaryExpression op1 e1 e2) e3), p3) := by
      refine .binary_loop (by rw [Call.operand_of_lt pos k2 hk2]; exact hb2) ?_
      exact Reads_loop_fold_unary ts _ p2 k2 op2 e3 p3 _ (by omega) hop2 hf2.1 h3 (hno3 _)
        (.loop_exit (hno k2 (Nat.zero_le _) (by omega)))
    exact Reads_expression_of_binary ts pos k2 _ p3 (by omega) hb3 hno

/-- Three operands, the second operator folding at a level above the first:
the second operator is folded first. -/
theorem Reads_three_operands_right (ts : List ScriptToken) (pos : Nat)
    (e1 : Expression) (p1 k1 : Nat) (op1 : ScriptToken) (e2 : Expression) (p2 k2 : Nat)
    (op2 : ScriptToken) (e3 : Expression) (p3 : Nat)
    (hk2 : k2 ≤ MAX_PRECEDENCE) (h12 : k1 < k2)
    (h1 : Reads ts (.unary pos) (.ok e1, p1))
    (hop1 : ts[p1]? = some op1) (hf1 : op1.FoldsAt k1)
    (h2 : Reads ts (.unary (p1 + 1)) (.ok e2, p2))
    (hop2 : ts[p2]? = some op2) (hf2 : op2.FoldsAt k2)
    (h3 : Reads ts (.unary (p2 + 1)) (.ok e3, p3)) (hno : NoOperatorFrom ts p3 0) :
    Reads ts (.expression pos)
      (.ok (.BinaryExpression op1 e1 (.BinaryExpression op2 e2 e3)), p3) := by
  have hno3 : ∀ k, NoOperatorFrom ts p3 k := fun k =>
    NoOperatorFrom_mono ts p3 0 k (Nat.zero_le _) hno
  have hk1 : k1 < MAX_PRECEDENCE := by omega
  have hin : Reads ts (.binary (p1 + 1) k2) (.ok (.BinaryExpression op2 e2 e3), p3) :=
    Reads_binary_fold ts (p1 + 1) e2 p2 k2 op2 e3 p3 _ hk2 h2 hop2 hf2 h3 (hno3 _)
      (.loop_exit (hno k2 (Nat.zero_le _) hk2))
  have hin2 : Reads ts (.binary (p1 + 1) (k1 + 1)) (.ok (.BinaryExpression op2 e2 e3), p3) :=
    Reads_binary_climb ts (p1 + 1) k2 _ p3 hk2 hin (k2 - (k1 + 1)) (k1 + 1) (by omega)
      (fun l _ h5 => hno l (Nat.zero_le _) (by omega))
  have hb : Reads ts (.binary pos k1)
      (.ok (.BinaryExpression op1 e1 (.BinaryExpression op2 e2 e3)), p3) := by
    refine .binary_loop
      (Reads_operand_of_unary ts pos e1 p1 h1 (MAX_PRECEDENCE - k1) k1 (by omega)
        (NoOperatorFrom_of_FoldsAt ts p1 op1 hop1 k1 hf1)) ?_
    refine .loop_fold (MatchOperator_precedence_of_BindsAt ts p1 op1 hop1 k1 hf1.1) hop1
      (by rw [Call.operand_of_lt (p1 + 1) k1 hk1]; exact hin2)
      (.loop_exit (hno k1 (Nat.zero_le _) (by omega)))
  exact Reads_expression_of_binary ts pos k1 _ p3 (by omega) hb hno

theorem ScriptToken.FoldsAt_of_text (t : ScriptToken) (hk : t.Kind = .Operator) :
    (t.Text = "OR" → t.FoldsAt 0) ∧ (t.Text = "AND" → t.FoldsAt 1) ∧
      (t.Text = "+" → t.FoldsAt 7) ∧ (t.Text = "*" → t.FoldsAt 8) ∧
      (t.Text = "-" → t.FoldsAt 9) := by
  refine ⟨fun ht => ⟨?_, fun l h1 h2 => ?_⟩, fun ht => ⟨?_, fun l h1 h2 => ?_⟩,
    fun ht => ⟨?_, fun l h1 h2 => ?_⟩, fun ht => ⟨?_, fun l h1 h2 => ?_⟩,
    fun ht => ⟨?_, fun l h1 h2 => ?_⟩⟩ <;>
  first
  | (simp [ScriptToken.BindsAt, MatchOperator_precedence, hk, ht]; done)
  | (unfold MAX_PRECEDENCE at h2
     interval_cases l <;> simp [ScriptToken.BindsAt, MatchOperator_precedence, hk, ht])

/-- A bracket token binds at no level. -/
theorem ScriptToken.not_BindsAt_bracket (t : ScriptToken) (ht : t.Text = "(" ∨ t.Text = ")")
    (l : Nat) (hl : l ≤ MAX_PRECEDENCE) : ¬ t.BindsAt l := by
  unfold MAX_PRECEDENCE at hl
  by_cases hk : t.Kind = .Operator
  · rcases ht with ht | ht <;> interval_cases l <;>
      simp [ScriptToken.BindsAt, MatchOperator_precedence, hk, ht]
  · simp [ScriptToken.BindsAt, MatchOperator_precedence, hk]

/-! ## Precedence, associativity, brackets and unary operators -/

/-- C4: for literal tokens `a`, `b`, `c`, parsing `[a, +, b, *, c]` yields
`a + (b * c)` and parsing `[a, OR, b, AND, c]` yields `a OR (b AND c)`; both
consume all five tokens. -/
theorem ReadExpression_precedence_examples (a b c o1 o2 : ScriptToken)
    (ha : a.IsLiteral) (hb : b.IsLiteral) (hc : c.IsLiteral)
    (hk1 : o1.Kind = .Operator) (hk2 : o2.Kind = .Operator)
    (ht : (o1.Text = "+" ∧ o2.Text = "*") ∨ (o1.Text = "OR" ∧ o2.Text = "AND")) :
    ReadExpression [a, o1, b, o2, c] 0 =
      (.ok (.BinaryExpression o1 (.LiteralValue a)
        (.BinaryExpression o2 (.LiteralValue b) (.LiteralValue c))), 5) := by
  apply run_eq_of_Reads
  have hA := Reads_unary_literal [a, o1, b, o2, c] 0 a rfl ha
  have hB := Reads_unary_literal [a, o1, b, o2, c] 2 b rfl hb
  have hC := Reads_unary_literal [a, o1, b, o2, c] 4 c rfl hc
  have hno := NoOperatorFrom_none [a, o1, b, o2, c] 5 rfl 0
  rcases ht with ⟨t1, t2⟩ | ⟨t1, t2⟩
  · exact Reads_three_operands_right _ 0 _ 1 7 o1 _ 3 8 o2 _ 5 (by decide) (by decide)
      hA rfl ((o1.FoldsAt_of_text hk1).2.2.1 t1) hB rfl ((o2.FoldsAt_of_text hk2).2.2.2.1 t2)
      hC hno
  · exact Reads_three_operands_right _ 0 _ 1 0 o1 _ 3 1 o2 _ 5 (by decide) (by decide)
      hA rfl ((o1.FoldsAt_of_text hk1).1 t1) hB rfl ((o2.FoldsAt_of_text hk2).2.1 t2)
      hC hno

/-- C6: for literal tokens `a`, `b`, `c` and an operator of the levels 0 to 8
used twice, parsing `[a, op, b, op, c]` consumes all five tokens and yields
`(a op b) op c`, not `a op (b op c)`. -/
theorem ReadExpression_same_operator_twice (a b c op1 op2 : ScriptToken)
    (ha : a.IsLiteral) (hb : b.IsLiteral) (hc : c.IsLiteral)
    (hk1 : op1.Kind = .Operator) (hk2 : op2.Kind = .Operator)
    (ht : op1.Text ∈ binaryOperatorTexts) (h12 : op2.Text = op1.Text) :
    ReadExpression [a, op1, b, op2, c] 0 =
        (.ok (.BinaryExpression op2
          (.BinaryExpression op1 (.LiteralValue a) (.LiteralValue b)) (.LiteralValue c)), 5) ∧
      (ReadExpression [a, op1, b, op2, c] 0).1 ≠
        .ok (.BinaryExpression op1 (.LiteralValue a)
          (.BinaryExpression op2 (.LiteralValue b) (.LiteralValue c))) := by
  obtain ⟨k, hk, hf⟩ := op1.exists_FoldsAt_of_binaryOperatorText hk1 ht
  have hf2 : op2.FoldsAt k := op1.FoldsAt_congr op2 (by rw [hk1, hk2]) h12.symm k hf
  have key : ReadExpression [a, op1, b, op2, c] 0 =
      (.ok (.BinaryExpression op2
        (.BinaryExpression op1 (.LiteralValue a) (.LiteralValue b)) (.LiteralValue c)), 5) := by
    apply run_eq_of_Reads
    exact Reads_three_operands_left _ 0 _ 1 k op1 _ 3 k op2 _ 5 hk (le_refl _)
      (Reads_unary_literal _ 0 a rfl ha) rfl hf (Reads_unary_literal _ 2 b rfl hb) rfl hf2
      (Reads_unary_literal _ 4 c rfl hc) (NoOperatorFrom_none _ 5 rfl 0)
  refine ⟨key, ?_⟩
  rw [key]
  simp

/-- C7 (bracket override): for literal tokens `a`, `b`, `c`, parsing
`[(, a, +, b, ), *, c]` yields the product of the bracketed sum and `c`, and
the post-order tokens of that tree are `[a, b, +, c, *]`. -/
theorem ReadExpression_bracket_override (lp a plus b rp times c : ScriptToken)
    (ha : a.IsLiteral) (hb : b.IsLiteral) (hc : c.IsLiteral)
    (hlp : lp.Kind = .Operator ∧ lp.Text = "(") (hrp : rp.Kind = .Operator ∧ rp.Text = ")")
    (hplus : plus.Kind = .Operator ∧ plus.Text = "+")
    (htimes : times.Kind = .Operator ∧ times.Text = "*") :
    ReadExpression [lp, a, plus, b, rp, times, c] 0 =
        (.ok (.BinaryExpression times
          (.BracketedExpression lp
            (.BinaryExpression plus (.LiteralValue a) (.LiteralValue b)) rp)
          (.LiteralValue c)), 7) ∧
      Expression.getTokenArray .PostOrder (.BinaryExpression times
          (.BracketedExpression lp
            (.BinaryExpression plus (.LiteralValue a) (.LiteralValue b)) rp)
          (.LiteralValue c)) = [a, b, plus, c, times] := by
  refine ⟨?_, by simp [Expression.getTokenArray]⟩
  apply run_eq_of_Reads
  have hinner : Reads [lp, a, plus, b, rp, times, c] (.expression 1)
      (.ok (.BinaryExpression plus (.LiteralValue a) (.LiteralValue b)), 4) :=
    Reads_two_operands _ 1 _ 2 7 plus _ 4 (by decide) (Reads_unary_literal _ 1 a rfl ha) rfl
      ((plus.FoldsAt_of_text hplus.1).2.2.1 hplus.2) (Reads_unary_literal _ 3 b rfl hb)
      (NoOperatorFrom_token _ 4 rp rfl 0 (fun l _ hl => rp.not_BindsAt_bracket (Or.inr hrp.2) l hl))
  have hopen : MatchOperator_op [lp, a, plus, b, rp, times, c] 0 "(" = true :=
    (MatchOperator_op_eq_true_iff _ _ _).2 ⟨lp, rfl, hlp.1, hlp.2⟩
  have hclose : MatchOperator_op [lp, a, plus, b, rp, times, c] 4 ")" = true :=
    (MatchOperator_op_eq_true_iff _ _ _).2 ⟨rp, rfl, hrp.1, hrp.2⟩
  have hval : Reads [lp, a, plus, b, rp, times, c] (.unary 0)
      (.ok (.BracketedExpression lp
        (.BinaryExpression plus (.LiteralValue a) (.LiteralValue b)) rp), 5) :=
    .unary_value
      (NoOperatorFrom_token _ 0 lp rfl 0
        (fun l _ hl => lp.not_BindsAt_bracket (Or.inl hlp.2) l hl) MAX_PRECEDENCE
        (Nat.zero_le _) (le_refl _))
      (.value_bracket hopen rfl hinner hclose rfl)
  exact Reads_two_operands _ 0 _ 5 8 times _ 7 (by decide) hval rfl
    ((times.FoldsAt_of_text htimes.1).2.2.2.1 htimes.2) (Reads_unary_literal _ 6 c rfl hc)
    (NoOperatorFrom_none _ 7 rfl 0)

/-- C8 (unary binding): for literal tokens `a`, `b`, a unary operator `u` among
`~`, `-`, `!` and a binary operator `op` of the levels 0 to 8, parsing
`[u, a, op, b]` yields `(u a) op b` and not `u (a op b)`. -/
theorem ReadExpression_unary_binds_operand (u a op b : ScriptToken)
    (hu : u.Kind = .Operator) (hut : u.Text ∈ unaryOperatorTexts)
    (ha : a.IsLiteral) (hb : b.IsLiteral)
    (hk : op.Kind = .Operator) (ht : op.Text ∈ binaryOperatorTexts) :
    ReadExpression [u, a, op, b] 0 =
        (.ok (.BinaryExpression op (.UnaryExpression u (.LiteralValue a))
          (.LiteralValue b)), 4) ∧
      (ReadExpression [u, a, op, b] 0).1 ≠
        .ok (.UnaryExpression u
          (.BinaryExpression op (.LiteralValue a) (.LiteralValue b))) := by
  obtain ⟨k, hk9, hf⟩ := op.exists_FoldsAt_of_binaryOperatorText hk ht
  have key : ReadExpression [u, a, op, b] 0 =
      (.ok (.BinaryExpression op (.UnaryExpression u (.LiteralValue a))
        (.LiteralValue b)), 4) := by
    apply run_eq_of_Reads
    have hun : Reads [u, a, op, b] (.unary 0)
        (.ok (.UnaryExpression u (.LiteralValue a)), 2) :=
      .unary_op
        (MatchOperator_precedence_of_BindsAt _ 0 u rfl _ (u.BindsAt_of_unaryOperatorText hu hut))
        rfl (.value_literal rfl ha)
    exact Reads_two_operands _ 0 _ 2 k op _ 4 hk9 hun rfl hf
      (Reads_unary_literal _ 3 b rfl hb) (NoOperatorFrom_none _ 4 rfl 0)
  refine ⟨key, ?_⟩
  rw [key]
  simp

/-! ## Errors -/

theorem Call.operand_inTable (pos precedence : Nat) :
    (Call.operand pos precedence).inTable := by
  unfold Call.operand
  split_ifs with hlt
  · simp only [Call.inTable]; omega
  · simp only [Call.inTable]

theorem Call.operand_level (pos precedence : Nat) (h : precedence ≤ MAX_PRECEDENCE) :
    (Call.operand pos precedence).level = precedence + 1 := by
  unfold Call.operand
  split_ifs with hlt
  · simp only [Call.level]
  · simp only [Call.level]; omega

/-- The run of a call on an input extended by one token `op`.  A call that
ended before the end of the input ends the same way.  A call that returned a
tree at the end of the input either now fails with "Missing operand" behind
`op`, or returns the same tree and `op` binds at no level from the level of the
call up. -/
theorem Reads_append (ts : List ScriptToken) (op : ScriptToken) (c : Call)
    (rp : Reading Expression) (h : Reads ts c rp) :
    c.inTable →
      (rp.2 < ts.length → Reads (ts ++ [op]) c rp) ∧
      (∀ e, rp = (.ok e, ts.length) →
        (c.isLoop = true → c.pos = ts.length →
          NoOperatorFrom (ts ++ [op]) ts.length (c.level + 1)) →
        Reads (ts ++ [op]) c
            (.error (.ScriptSyntaxException "Missing operand"), ts.length + 1) ∨
          (Reads (ts ++ [op]) c (.ok e, ts.length) ∧
            NoOperatorFrom (ts ++ [op]) ts.length c.level)) := by
  have hL : (ts ++ [op])[ts.length]? = some op := by simp
  have hend : (ts ++ [op])[ts.length + 1]? = none := by simp
  have hlt : ∀ i, i < ts.length → (ts ++ [op])[i]? = ts[i]? := fun i hi => by
    simp [List.getElem?_append_left hi]
  have hML : ∀ i, i < ts.length → MatchLiteral (ts ++ [op]) i = MatchLiteral ts i :=
    fun i hi => by simp only [MatchLiteral, hlt i hi]
  have hMO : ∀ i s, i < ts.length →
      MatchOperator_op (ts ++ [op]) i s = MatchOperator_op ts i s :=
    fun i s hi => by simp only [MatchOperator_op, hlt i hi]
  have hMP : ∀ i l, i < ts.length →
      MatchOperator_precedence (ts ++ [op]) i l = MatchOperator_precedence ts i l :=
    fun i l hi => by simp only [MatchOperator_precedence, hlt i hi]
  induction h with
  | @expression pos r h1 ih =>
    intro _
    have ih := ih (by simp [Call.inTable, MIN_PRECEDENCE])
    refine ⟨fun hp => .expression (ih.1 hp), fun e he _ => ?_⟩
    rcases ih.2 e he (by simp [Call.isLoop]) with hl | ⟨hr, hn⟩
    · exact .inl (.expression hl)
    · exact .inr ⟨.expression hr, hn⟩
  | @binary_throw pos precedence e pos1 h1 ih =>
    intro hin
    have ih := ih (Call.operand_inTable pos precedence)
    exact ⟨fun hp => .binary_throw (ih.1 hp), fun e he _ => by cases he⟩
  | @binary_loop pos precedence expr pos1 r h1 h2 ih1 ih2 =>
    intro hin
    have hin9 : precedence ≤ MAX_PRECEDENCE := hin
    have ih1 := ih1 (Call.operand_inTable pos precedence)
    have ih2 := ih2 hin
    have b2 := (Reads_bounds ts _ _ h2).1
    simp only [Call.pos] at b2
    refine ⟨fun hp => .binary_loop (ih1.1 (lt_of_le_of_lt b2 hp)) (ih2.1 hp),
      fun e he _ => ?_⟩
    subst he
    rcases Nat.lt_or_eq_of_le b2 with hlt1 | heq1
    · have h1n := ih1.1 hlt1
      rcases ih2.2 e rfl (fun _ hpos => absurd hpos (Nat.ne_of_lt hlt1)) with hl | ⟨hr, hn⟩
      · exact .inl (.binary_loop h1n hl)
      · exact .inr ⟨.binary_loop h1n hr, hn⟩
    · simp only [] at heq1
      subst heq1
      rcases ih1.2 expr rfl (by simp) with hl | ⟨hr, hn⟩
      · exact .inl (.binary_throw hl)
      · rw [Call.operand_level pos precedence hin9] at hn
        rcases ih2.2 e rfl (fun _ _ => hn) with hl2 | ⟨hr2, hn2⟩
        · exact .inl (.binary_loop hr hl2)
        · exact .inr ⟨.binary_loop hr hr2, hn2⟩
  | @loop_throw expr pos precedence e hm =>
    intro _
    refine ⟨fun hp => .loop_throw (by rw [hMP pos precedence hp]; exact hm),
      fun e he _ => by cases he⟩
  | @loop_exit expr pos precedence hm =>
    intro hin
    have hin9 : precedence ≤ MAX_PRECEDENCE := hin
    refine ⟨fun hp => .loop_exit (by rw [hMP pos precedence hp]; exact hm),
      fun e he hpre => ?_⟩
    simp only [Prod.mk.injEq, Except.ok.injEq] at he
    obtain ⟨he1, he2⟩ := he
    subst he1
    have hno := hpre rfl he2
    simp only [Call.level] at hno ⊢
    rcases MatchOperator_precedence_level (ts ++ [op]) ts.length precedence hin9 with hm2 | hm2
    · refine .inl ?_
      rw [he2]
      exact .loop_rhs_throw hm2 hL
        (Reads_operand_missing _ _ hend (MAX_PRECEDENCE - precedence) precedence (by omega))
    · refine .inr ⟨by rw [he2]; exact .loop_exit hm2, fun l h1 h2 => ?_⟩
      rcases Nat.eq_or_lt_of_le h1 with heq | hlt2
      · rw [← heq]; exact hm2
      · exact hno l hlt2 h2
  | @loop_rhs_throw expr pos precedence t e pos2 hm ht h1 ih =>
    intro hin
    have ih := ih (Call.operand_inTable (pos + 1) precedence)
    have b1 := (Reads_bounds ts _ _ h1).1
    simp only [Call.operand_pos] at b1
    refine ⟨fun hp => ?_, fun e he _ => by cases he⟩
    have hp2 : pos < ts.length := by simp only [] at hp; omega
    exact .loop_rhs_throw (by rw [hMP pos precedence hp2]; exact hm)
      (by rw [hlt pos hp2]; exact ht) (ih.1 hp)
  | @loop_fold expr pos precedence t rhs pos2 r hm ht h1 h2 ih1 ih2 =>
    intro hin
    have hin9 : precedence ≤ MAX_PRECEDENCE := hin
    have ih1 := ih1 (Call.operand_inTable (pos + 1) precedence)
    have ih2 := ih2 hin
    have b1 := (Reads_bounds ts _ _ h1).1
    have b2 := (Reads_bounds ts _ _ h2).1
    simp only [Call.operand_pos] at b1
    simp only [Call.pos] at b2
    have hp0 : pos < ts.length := getElem?_some_lt ts pos t ht
    have hm0 : MatchOperator_precedence (ts ++ [op]) pos precedence = .ok true := by
      rw [hMP pos precedence hp0]; exact hm
    have ht0 : (ts ++ [op])[pos]? = some t := by rw [hlt pos hp0]; exact ht
    refine ⟨fun hp => .loop_fold hm0 ht0 (ih1.1 (lt_of_le_of_lt b2 hp)) (ih2.1 hp),
      fun e he _ => ?_⟩
    subst he
    rcases Nat.lt_or_eq_of_le b2 with hlt1 | heq1
    · have h1n := ih1.1 hlt1
      rcases ih2.2 e rfl (fun _ hpos => absurd hpos (Nat.ne_of_lt hlt1)) with hl | ⟨hr, hn⟩
      · exact .inl (.loop_fold hm0 ht0 h1n hl)
      · exact .inr ⟨.loop_fold hm0 ht0 h1n hr, hn⟩
    · simp only [] at heq1
      subst heq1
      rcases ih1.2 rhs rfl (by simp) with hl | ⟨hr, hn⟩
      · exact .inl (.loop_rhs_throw hm0 ht0 hl)
      · rw [Call.operand_level (pos + 1) precedence hin9] at hn
        rcases ih2.2 e rfl (fun _ _ => hn) with hl2 | ⟨hr2, hn2⟩
        · exact .inl (.loop_fold hm0 ht0 hr hl2)
        · exact .inr ⟨.loop_fold hm0 ht0 hr hr2, hn2⟩
  | @unary_throw pos t e pos2 hm ht h1 ih =>
    intro _
    have ih := ih trivial
    have b1 := (Reads_bounds ts _ _ h1).1
    simp only [Call.pos] at b1
    refine ⟨fun hp => ?_, fun e he _ => by cases he⟩
    have hp2 : pos < ts.length := by simp only [] at hp; omega
    exact .unary_throw (by rw [hMP pos _ hp2]; exact hm) (by rw [hlt pos hp2]; exact ht)
      (ih.1 hp)
  | @unary_op pos t value pos2 hm ht h1 ih =>
    intro _
    have ih := ih trivial
    have hp0 : pos < ts.length := getElem?_some_lt ts pos t ht
    have hm0 : MatchOperator_precedence (ts ++ [op]) pos MAX_PRECEDENCE = .ok true := by
      rw [hMP pos _ hp0]; exact hm
    have ht0 : (ts ++ [op])[pos]? = some t := by rw [hlt pos hp0]; exact ht
    refine ⟨fun hp => .unary_op hm0 ht0 (ih.1 hp), fun e he _ => ?_⟩
    simp only [Prod.mk.injEq, Except.ok.injEq] at he
    obtain ⟨he1, he2⟩ := he
    subst he1 he2
    rcases ih.2 value rfl (by simp [Call.isLoop]) with hl | ⟨hr, _⟩
    · exact .inl (.unary_throw hm0 ht0 hl)
    · exact .inr ⟨.unary_op hm0 ht0 hr, fun l h1 h2 => by simp only [Call.level] at h1; omega⟩
  | @unary_value pos r hm h1 ih =>
    intro _
    have ih := ih trivial
    have b := Reads_bounds ts _ _ h1
    simp only [Call.pos, Call.isLoop] at b
    refine ⟨fun hp => .unary_value (by rw [hMP pos _ (lt_of_le_of_lt b.1 hp)]; exact hm)
      (ih.1 hp), fun e he _ => ?_⟩
    subst he
    have hp0 : pos < ts.length := b.2.2 e rfl trivial
    have hm0 : MatchOperator_precedence (ts ++ [op]) pos MAX_PRECEDENCE = .ok false := by
      rw [hMP pos _ hp0]; exact hm
    rcases ih.2 e rfl (by simp [Call.isLoop]) with hl | ⟨hr, hn⟩
    · exact .inl (.unary_value hm0 hl)
    · exact .inr ⟨.unary_value hm0 hr, hn⟩
  | @value_literal pos t ht hl =>
    intro _
    have hp0 : pos < ts.length := getElem?_some_lt ts pos t ht
    have ht0 : (ts ++ [op])[pos]? = some t := by rw [hlt pos hp0]; exact ht
    refine ⟨fun _ => .value_literal ht0 hl, fun e he _ => ?_⟩
    simp only [Prod.mk.injEq, Except.ok.injEq] at he
    obtain ⟨he1, he2⟩ := he
    subst he1
    rw [← he2]
    exact .inr ⟨.value_literal ht0 hl, fun l h1 h2 => by simp only [Call.level] at h1; omega⟩
  | @value_missing pos hx =>
    intro _
    refine ⟨fun hp => ?_, fun e he _ => by cases he⟩
    simp only [] at hp
    rw [List.getElem?_eq_getElem hp] at hx
    cases hx
  | @value_unexpected pos t ht hl hm =>
    intro _
    have hp0 : pos < ts.length := getElem?_some_lt ts pos t ht
    exact ⟨fun _ => .value_unexpected (by rw [hlt pos hp0]; exact ht) hl
      (by rw [hMO pos _ hp0]; exact hm), fun e he _ => by cases he⟩
  | @value_inner_throw pos e pos2 hm h1 ih =>
    intro _
    have ih := ih trivial
    obtain ⟨o, ho, -⟩ := (MatchOperator_op_eq_true_iff _ _ _).1 hm
    have hp0 : pos < ts.length := getElem?_some_lt ts pos o ho
    exact ⟨fun hp => .value_inner_throw (by rw [hMO pos _ hp0]; exact hm) (ih.1 hp),
      fun e he _ => by cases he⟩
  | @value_unclosed pos expr pos2 hm h1 hc ih =>
    intro _
    have ih := ih trivial
    obtain ⟨o, ho, -⟩ := (MatchOperator_op_eq_true_iff _ _ _).1 hm
    have hp0 : pos < ts.length := getElem?_some_lt ts pos o ho
    refine ⟨fun hp => ?_, fun e he _ => by cases he⟩
    exact .value_unclosed (by rw [hMO pos _ hp0]; exact hm) (ih.1 hp)
      (by rw [hMO pos2 _ hp]; exact hc)
  | @value_bracket pos open_ expr pos2 close hm ho h1 hc hcl ih =>
    intro _
    have ih := ih trivial
    have hp0 : pos < ts.length := getElem?_some_lt ts pos open_ ho
    have hp2 : pos2 < ts.length := getElem?_some_lt ts pos2 close hcl
    have hnew : Reads (ts ++ [op]) (.value pos)
        (.ok (.BracketedExpression open_ expr close), pos2 + 1) :=
      .value_bracket (by rw [hMO pos _ hp0]; exact hm) (by rw [hlt pos hp0]; exact ho)
        (ih.1 hp2) (by rw [hMO pos2 _ hp2]; exact hc) (by rw [hlt pos2 hp2]; exact hcl)
    refine ⟨fun _ => hnew, fun e he _ => ?_⟩
    simp only [Prod.mk.injEq, Except.ok.injEq] at he
    obtain ⟨he1, he2⟩ := he
    subst he1
    rw [← he2]
    exact .inr ⟨hnew, fun l h1 h2 => by simp only [Call.level] at h1; omega⟩

theorem ScriptToken.BindsAt_of_operatorText (t : ScriptToken) (hk : t.Kind = .Operator)
    (ht : t.Text ∈ operatorTexts) : ∃ l, l ≤ MAX_PRECEDENCE ∧ t.BindsAt l := by
  rcases List.mem_append.1 ht with h | h
  · obtain ⟨l, hl, hb⟩ := t.BindsAt_of_binaryOperatorText hk h
    exact ⟨l, by unfold MAX_PRECEDENCE; omega, hb⟩
  · exact ⟨MAX_PRECEDENCE, le_refl _, t.BindsAt_of_unaryOperatorText hk h⟩

/-- C9 (missing closing bracket): when the token at the position is the
operator `(`, `ReadExpression` returns a tree from the next position, and the
token behind that expression is absent or is not the operator `)`, `ReadValue`
throws the syntax error "Missing closing bracket". -/
theorem ReadValue_missing_closing_bracket (ts : List ScriptToken) (pos : Nat)
    (open_ : ScriptToken) (inner : Expression) (pos2 : Nat)
    (ho : ts[pos]? = some open_) (hk : open_.Kind = .Operator) (ht : open_.Text = "(")
    (hin : ReadExpression ts (pos + 1) = (.ok inner, pos2))
    (hcl : ∀ t, ts[pos2]? = some t → ¬ (t.Kind = .Operator ∧ t.Text = ")")) :
    ReadValue ts pos = (.error (.ScriptSyntaxException "Missing closing bracket"), pos2) := by
  apply run_eq_of_Reads
  refine .value_unclosed ((MatchOperator_op_eq_true_iff ts pos "(").2 ⟨open_, ho, hk, ht⟩)
    ((run_eq_iff ts _ _).1 hin) ?_
  rw [Bool.eq_false_iff]
  intro hm
  obtain ⟨t, h1, h2, h3⟩ := (MatchOperator_op_eq_true_iff ts pos2 ")").1 hm
  exact hcl t h1 ⟨h2, h3⟩

/-- Witness of C9: the input `[ "(", 1 ]`. -/
theorem ReadValue_missing_closing_bracket_witness :
    ReadValue [tokOp "(", tok1] 0 =
      (.error (.ScriptSyntaxException "Missing closing bracket"), 2) :=
  ReadValue_missing_closing_bracket [tokOp "(", tok1] 0 (tokOp "(") (.LiteralValue tok1) 2
    rfl rfl rfl (by decide) (by intro t h; cases h)

/-- C10 (trailing operator): when `ReadExpression` returns a tree for `ts`
having consumed every token, then for an operator token `op` of the precedence
table it throws the syntax error "Missing operand" on `ts ++ [op]`, with the
iterator behind `op`. -/
theorem ReadExpression_trailing_operator (ts : List ScriptToken) (tree : Expression)
    (op : ScriptToken) (h : ReadExpression ts 0 = (.ok tree, ts.length))
    (hk : op.Kind = .Operator) (ht : op.Text ∈ operatorTexts) :
    ReadExpression (ts ++ [op]) 0 =
      (.error (.ScriptSyntaxException "Missing operand"), ts.length + 1) := by
  apply run_eq_of_Reads
  have hr : Reads ts (.expression 0) (.ok tree, ts.length) := (run_eq_iff ts _ _).1 h
  rcases (Reads_append ts op _ _ hr trivial).2 tree rfl (by simp [Call.isLoop]) with hl | ⟨_, hn⟩
  · exact hl
  · obtain ⟨l, hl, hb⟩ := op.BindsAt_of_operatorText hk ht
    have h1 := hn l (Nat.zero_le _) hl
    rw [MatchOperator_precedence_of_BindsAt (ts ++ [op]) ts.length op (by simp) l hb] at h1
    cases h1

/-- Witness of C10: the input `[1, +]`. -/
theorem ReadExpression_trailing_operator_witness :
    ReadExpression [tok1] 0 = (.ok (.LiteralValue tok1), 1) ∧
      ReadExpression [tok1, tokOp "+"] 0 =
        (.error (.ScriptSyntaxException "Missing operand"), 2) :=
  ⟨by decide,
    ReadExpression_trailing_operator [tok1] (.LiteralValue tok1) (tokOp "+") (by decide) rfl
      (by decide)⟩

/-! ## Witnesses -/

/-- Witness of C4: `a + b * c`. -/
theorem ReadExpression_precedence_examples_witness :
    ReadExpression [tokA, tokOp "+", tokB, tokOp "*", tokC] 0 =
      (.ok (.BinaryExpression (tokOp "+") (.LiteralValue tokA)
        (.BinaryExpression (tokOp "*") (.LiteralValue tokB) (.LiteralValue tokC))), 5) :=
  ReadExpression_precedence_examples tokA tokB tokC (tokOp "+") (tokOp "*")
    (by decide) (by decide) (by decide) rfl rfl (by decide)

/-- Witness of C6: `a - b - c`. -/
theorem ReadExpression_same_operator_twice_witness :
    ReadExpression [tokA, tokOp "-", tokB, tokOp "-", tokC] 0 =
        (.ok (.BinaryExpression (tokOp "-")
          (.BinaryExpression (tokOp "-") (.LiteralValue tokA) (.LiteralValue tokB))
          (.LiteralValue tokC)), 5) ∧
      (ReadExpression [tokA, tokOp "-", tokB, tokOp "-", tokC] 0).1 ≠
        .ok (.BinaryExpression (tokOp "-") (.LiteralValue tokA)
          (.BinaryExpression (tokOp "-") (.LiteralValue tokB) (.LiteralValue tokC))) :=
  ReadExpression_same_operator_twice tokA tokB tokC (tokOp "-") (tokOp "-")
    (by decide) (by decide) (by decide) rfl rfl (by decide) rfl

/-- Witness of C7: `( a + b ) * c`. -/
theorem ReadExpression_bracket_override_witness :
    ReadExpression [tokOp "(", tokA, tokOp "+", tokB, tokOp ")", tokOp "*", tokC] 0 =
        (.ok (.BinaryExpression (tokOp "*")
          (.BracketedExpression (tokOp "(")
            (.BinaryExpression (tokOp "+") (.LiteralValue tokA) (.LiteralValue tokB))
            (tokOp ")"))
          (.LiteralValue tokC)), 7) ∧
      Expression.getTokenArray .PostOrder (.BinaryExpression (tokOp "*")
          (.BracketedExpression (tokOp "(")
            (.BinaryExpression (tokOp "+") (.LiteralValue tokA) (.LiteralValue tokB))
            (tokOp ")"))
          (.LiteralValue tokC)) = [tokA, tokB, tokOp "+", tokC, tokOp "*"] :=
  ReadExpression_bracket_override (tokOp "(") tokA (tokOp "+") tokB (tokOp ")") (tokOp "*") tokC
    (by decide) (by decide) (by decide) ⟨rfl, rfl⟩ ⟨rfl, rfl⟩ ⟨rfl, rfl⟩ ⟨rfl, rfl⟩

/-- Witness of C8: `- a + b`. -/
theorem ReadExpression_unary_binds_operand_witness :
    ReadExpression [tokOp "-", tokA, tokOp "+", tokB] 0 =
        (.ok (.BinaryExpression (tokOp "+")
          (.UnaryExpression (tokOp "-") (.LiteralValue tokA)) (.LiteralValue tokB)), 4) ∧
      (ReadExpression [tokOp "-", tokA, tokOp "+", tokB] 0).1 ≠
        .ok (.UnaryExpression (tokOp "-")
          (.BinaryExpression (tokOp "+") (.LiteralValue tokA) (.LiteralValue tokB))) :=
  ReadExpression_unary_binds_operand (tokOp "-") tokA (tokOp "+") tokB
    rfl (by decide) (by decide) (by decide) rfl (by decide)

/-! ## Where the code departs from its documentation -/

/-- C2: `Parse` returns normally on an input with tokens left over.  On
`[1, 2]` and on `[1, )]` it reads the literal `1`, leaves the iterator at
position 1 of 2, and fills the infix and postfix arrays from that tree. -/
theorem Parse_leaves_trailing_tokens :
    ReadExpression [tok1, tok2] 0 = (.ok (.LiteralValue tok1), 1) ∧
      Parse [tok1, tok2] =
        .ok { InputBegin := 1, InfixParams := [tok1], PostfixParams := [tok1],
              Message := none } ∧
      Parse [tok1, tokOp ")"] =
        .ok { InputBegin := 1, InfixParams := [tok1], PostfixParams := [tok1],
              Message := none } := by
  decide

/-- C3: the loop of level 9 folds a binary `-` before the loop of level 8 sees
`*`, so `a - b * c` is read as `(a - b) * c`. -/
theorem ReadExpression_minus_before_times :
    ReadExpression [tokA, tokOp "-", tokB, tokOp "*", tokC] 0 =
      (.ok (.BinaryExpression (tokOp "*")
        (.BinaryExpression (tokOp "-") (.LiteralValue tokA) (.LiteralValue tokB))
        (.LiteralValue tokC)), 5) := by
  decide

/-- C5: the loop of level 9 folds a binary `-` inside the right operand of
`+`, so `a + b - c` is read as `a + (b - c)`. -/
theorem ReadExpression_plus_minus_right_nested :
    ReadExpression [tokA, tokOp "+", tokB, tokOp "-", tokC] 0 =
      (.ok (.BinaryExpression (tokOp "+") (.LiteralValue tokA)
        (.BinaryExpression (tokOp "-") (.LiteralValue tokB) (.LiteralValue tokC))), 5) := by
  decide

/-! ## Syntax errors at the first token -/

/-- An exception thrown by `ReadUnaryExpression` leaves every operand of a
level of the table. -/
theorem Reads_operand_of_unary_throw (ts : List ScriptToken) (p : Nat)
    (e : ParserException) (p1 : Nat) (h : Reads ts (.unary p) (.error e, p1)) :
    ∀ (d precedence : Nat), precedence + d = MAX_PRECEDENCE →
      Reads ts (Call.operand p precedence) (.error e, p1) := by
  intro d
  induction d with
  | zero =>
    intro precedence hp
    rw [Call.operand_of_not_lt p precedence (by omega)]
    exact h
  | succ d ih =>
    intro precedence hp
    rw [Call.operand_of_lt p precedence (by omega)]
    exact .binary_throw (ih (precedence + 1) (by omega))

/-- An exception thrown by `ReadUnaryExpression` at the start of an expression
leaves `ReadExpression`. -/
theorem Reads_expression_of_unary_throw (ts : List ScriptToken) (p : Nat)
    (e : ParserException) (p1 : Nat) (h : Reads ts (.unary p) (.error e, p1)) :
    Reads ts (.expression p) (.error e, p1) :=
  .expression (.binary_throw
    (Reads_operand_of_unary_throw ts p e p1 h MAX_PRECEDENCE MIN_PRECEDENCE
      (by simp [MIN_PRECEDENCE])))

/-- C11 (empty input): with the iterator at or behind the end of the input,
`ReadExpression` throws the syntax error "Missing operand" without moving the
iterator; on the empty input `Parse` fills neither the infix nor the postfix
array. -/
theorem ReadExpression_missing_operand (ts : List ScriptToken) (pos : Nat)
    (h : ts.length ≤ pos) :
    ReadExpression ts pos = (.error (.ScriptSyntaxException "Missing operand"), pos) ∧
      Parse [] = .ok { InputBegin := 0, InfixParams := [], PostfixParams := [],
                       Message := some "Missing operand" } := by
  refine ⟨?_, by decide⟩
  exact run_eq_of_Reads ts _ _
    (Reads_expression_missing ts pos (List.getElem?_eq_none h))

/-- Witness of C11: the empty input, read from its start. -/
theorem ReadExpression_missing_operand_witness :
    ReadExpression [] 0 = (.error (.ScriptSyntaxException "Missing operand"), 0) :=
  (ReadExpression_missing_operand [] 0 (by decide)).1

/-- A text without a NUL character is read whole by a `%s` format. -/
theorem c_str_of_no_nul (text : String) (h : Char.ofNat 0 ∉ text.toList) :
    c_str text = text := by
  unfold c_str
  have hall : text.toList.takeWhile (fun ch => ch != Char.ofNat 0) = text.toList := by
    rw [List.takeWhile_eq_self_iff]
    intro ch hch
    simp only [bne_iff_ne, ne_eq]
    intro hc
    exact h (hc ▸ hch)
  rw [hall]
  cases text
  rfl

/-- The operator texts of level 9 have no NUL character. -/
theorem c_str_of_unaryOperatorText (text : String) (h : text ∈ unaryOperatorTexts) :
    c_str text = text := by
  simp only [unaryOperatorTexts, List.mem_cons, List.mem_singleton, List.not_mem_nil,
    or_false] at h
  rcases h with h | h | h <;> rw [h] <;> decide

/-- Counterexample of C12: on the single token of kind `Text` whose text is
`a`, a NUL character and `b`, the message names `a` only, not the text of the
token. -/
theorem ReadExpression_unexpected_token_nul :
    ReadExpression [tok .Text "a\x00b"] 0 =
        (.error (.ScriptSyntaxException "Unexpected \x27a\x27"), 0) ∧
      ReadExpression [tok .Text "a\x00b"] 0 ≠
        (.error (.ScriptSyntaxException
          ("Unexpected \x27" ++ (tok .Text "a\x00b").Text ++ "\x27")), 0) := by
  decide

/-- C12, amended (unexpected token): when the token at the position is neither
of a literal kind, nor the operator `(`, nor an operator with text `~`, `-` or
`!`, `ReadExpression` throws the syntax error "Unexpected" naming the text of
that token up to its first NUL character, without moving the iterator; for a
text without a NUL character the message names the whole text. -/
theorem ReadExpression_unexpected_token (ts : List ScriptToken) (pos : Nat) (t : ScriptToken)
    (ht : ts[pos]? = some t) (hl : ¬ t.IsLiteral)
    (hb : ¬ (t.Kind = .Operator ∧ t.Text = "("))
    (hu : ¬ (t.Kind = .Operator ∧ t.Text ∈ unaryOperatorTexts)) :
    ReadExpression ts pos =
        (.error (.ScriptSyntaxException ("Unexpected \x27" ++ c_str t.Text ++ "\x27")), pos) ∧
      (Char.ofNat 0 ∉ t.Text.toList →
        ReadExpression ts pos =
          (.error (.ScriptSyntaxException ("Unexpected \x27" ++ t.Text ++ "\x27")), pos)) := by
  have key : ReadExpression ts pos =
      (.error (.ScriptSyntaxException ("Unexpected \x27" ++ c_str t.Text ++ "\x27")), pos) := by
    apply run_eq_of_Reads
    apply Reads_expression_of_unary_throw
    have h9 : MatchOperator_precedence ts pos MAX_PRECEDENCE = .ok false := by
      rcases MatchOperator_precedence_level ts pos MAX_PRECEDENCE (le_refl _) with hm | hm
      · exfalso
        obtain ⟨u, hu1, hu2⟩ := MatchOperator_precedence_true ts pos _ hm
        rw [ht] at hu1
        cases hu1
        apply hu
        refine ⟨hu2, ?_⟩
        simp only [MatchOperator_precedence, ht, MAX_PRECEDENCE, hu2] at hm
        simp only [unaryOperatorTexts, List.mem_cons, List.mem_singleton, List.not_mem_nil,
          or_false]
        simpa [or_assoc] using hm
      · exact hm
    refine .unary_value h9 (.value_unexpected ht hl ?_)
    rw [Bool.eq_false_iff]
    intro hm
    obtain ⟨u, hu1, hu2, hu3⟩ := (MatchOperator_op_eq_true_iff ts pos "(").1 hm
    rw [ht] at hu1
    cases hu1
    exact hb ⟨hu2, hu3⟩
  refine ⟨key, fun hn => ?_⟩
  rw [key, c_str_of_no_nul t.Text hn]

/-- Witness of C12, amended: the input `[+, 1]`, read from its start. -/
theorem ReadExpression_unexpected_token_witness :
    ReadExpression [tokOp "+", tok1] 0 =
      (.error (.ScriptSyntaxException "Unexpected \x27+\x27"), 0) :=
  (ReadExpression_unexpected_token [tokOp "+", tok1] 0 (tokOp "+") rfl (by decide) (by decide)
    (by decide)).2 (by decide)

/-- C13: `Parse` catches the syntax error of `ReadExpression`.  On `[+, 1]` and
on `[(, 1]` the reading throws a `ScriptSyntaxException`, and `Parse` returns
normally with empty arrays, having written the message to the console. -/
theorem Parse_catches_syntax_error :
    ReadExpression [tokOp "+", tok1] 0 =
        (.error (.ScriptSyntaxException "Unexpected \x27+\x27"), 0) ∧
      Parse [tokOp "+", tok1] =
        .ok { InputBegin := 0, InfixParams := [], PostfixParams := [],
              Message := some "Unexpected \x27+\x27" } ∧
      ReadExpression [tokOp "(", tok1] 0 =
        (.error (.ScriptSyntaxException "Missing closing bracket"), 2) ∧
      Parse [tokOp "(", tok1] =
        .ok { InputBegin := 2, InfixParams := [], PostfixParams := [],
              Message := some "Missing closing bracket" } := by
  decide

/-! ## The precedence table -/

/-- On an operator token and a level of the table, `MatchOperator` returns
true exactly when the text of the token is in the set of the level. -/
theorem MatchOperator_precedence_operator (ts : List ScriptToken) (pos : Nat)
    (t : ScriptToken) (ht : ts[pos]? = some t) (hk : t.Kind = .Operator) (level : Nat)
    (hl : level ≤ MAX_PRECEDENCE) :
    MatchOperator_precedence ts pos level = .ok true ↔ t.Text ∈ precedenceTable level := by
  unfold MAX_PRECEDENCE at hl
  interval_cases level <;>
    simp [MatchOperator_precedence, ht, hk, precedenceTable, or_assoc]

/-- C14: for a level from 0 to 9, `MatchOperator(pos, level)` returns a
Boolean, and returns true if and only if the position is before the end of the
input, the token there is an operator, and its text is in the set of the level
in the precedence table. -/
theorem MatchOperator_precedence_iff (ts : List ScriptToken) (pos : Nat) (level : Nat)
    (hl : level ≤ 9) :
    (MatchOperator_precedence ts pos level = .ok true ∨
        MatchOperator_precedence ts pos level = .ok false) ∧
      (MatchOperator_precedence ts pos level = .ok true ↔
        pos < ts.length ∧
          ∃ t, ts[pos]? = some t ∧ t.Kind = .Operator ∧ t.Text ∈ precedenceTable level) := by
  refine ⟨MatchOperator_precedence_level ts pos level hl, ?_⟩
  constructor
  · intro h
    obtain ⟨t, ht, hk⟩ := MatchOperator_precedence_true ts pos level h
    exact ⟨getElem?_some_lt ts pos t ht, t, ht, hk,
      (MatchOperator_precedence_operator ts pos t ht hk level hl).1 h⟩
  · rintro ⟨_, t, ht, hk, hm⟩
    exact (MatchOperator_precedence_operator ts pos t ht hk level hl).2 hm

/-- Witness of C14: level 7 on the `+` of `1 +`. -/
theorem MatchOperator_precedence_iff_witness :
    MatchOperator_precedence [tok1, tokOp "+"] 1 7 = .ok true ∧
      (1 < [tok1, tokOp "+"].length ∧
        ∃ t, [tok1, tokOp "+"][1]? = some t ∧ t.Kind = .Operator ∧
          t.Text ∈ precedenceTable 7) :=
  ⟨by decide,
    ((MatchOperator_precedence_iff [tok1, tokOp "+"] 1 7 (by decide)).2).1 (by decide)⟩

/-- Counterexample of C15: at the end of the input and on a token that is not
an operator, `MatchOperator` returns false for the level 10 and throws
nothing. -/
theorem MatchOperator_precedence_out_of_range_false :
    MatchOperator_precedence [] 0 10 = .ok false ∧
      MatchOperator_precedence [tok1] 0 10 = .ok false := by
  decide

/-- C15, amended: for a level above 9, `MatchOperator(pos, level)` throws an
`ArgumentException` on the argument `precedence` when the position holds an
operator token, and returns false at the end of the input and on a token that
is not an operator. -/
theorem MatchOperator_precedence_out_of_range (ts : List ScriptToken) (pos : Nat)
    (level : Nat) (hl : 9 < level) :
    ((∃ t, ts[pos]? = some t ∧ t.Kind = .Operator) →
        MatchOperator_precedence ts pos level =
          .error (.ArgumentException "precedence" ("Invalid precedence " ++ formatD level))) ∧
      ((∀ t, ts[pos]? = some t → t.Kind ≠ .Operator) →
        MatchOperator_precedence ts pos level = .ok false) := by
  constructor
  · rintro ⟨t, ht, hk⟩
    unfold MatchOperator_precedence
    simp only [ht, hk, ne_eq, not_true_eq_false, if_false]
    split <;> first | omega | rfl
  · intro h
    cases ht : ts[pos]? with
    | none => exact MatchOperator_precedence_none ts pos ht level
    | some t => exact MatchOperator_precedence_not_operator ts pos t ht (h t ht) level

/-- Witness of C15, amended: level 10 on the operator `+`. -/
theorem MatchOperator_precedence_out_of_range_witness :
    MatchOperator_precedence [tokOp "+"] 0 10 =
      .error (.ArgumentException "precedence" ("Invalid precedence " ++ formatD 10)) :=
  (MatchOperator_precedence_out_of_range [tokOp "+"] 0 10 (by decide)).1 ⟨tokOp "+", rfl, rfl⟩

/-- C16: the loop of level 9 folds the operators of level 9 as binary
operators, so `a ! b` is read as the binary node of `!`, and `a ~ b` as that of
`~`. -/
theorem ReadExpression_level9_binary :
    ReadExpression [tokA, tokOp "!", tokB] 0 =
        (.ok (.BinaryExpression (tokOp "!") (.LiteralValue tokA) (.LiteralValue tokB)), 3) ∧
      ReadExpression [tokA, tokOp "~", tokB] 0 =
        (.ok (.BinaryExpression (tokOp "~") (.LiteralValue tokA) (.LiteralValue tokB)), 3) := by
  decide

/-! ## Only syntax errors are thrown -/

/-- At a level of the table, every exception a call ends in is a
`ScriptSyntaxException`. -/
theorem Reads_throws_syntax (ts : List ScriptToken) (c : Call) (rp : Reading Expression)
    (h : Reads ts c rp) :
    c.inTable → ∀ e, rp.1 = .error e → ∃ msg, e = .ScriptSyntaxException msg := by
  induction h with
  | expression _ ih => intro _; exact ih (by simp [Call.inTable, MIN_PRECEDENCE])
  | @binary_throw pos precedence e pos1 _ ih =>
    intro _
    exact ih (Call.operand_inTable pos precedence)
  | binary_loop _ _ _ ih2 => intro hin; exact ih2 hin
  | @loop_throw expr pos precedence e hm =>
    intro hin
    have hin9 : precedence ≤ MAX_PRECEDENCE := hin
    rcases MatchOperator_precedence_level ts pos precedence hin9 with h1 | h1 <;>
      rw [h1] at hm <;> cases hm
  | loop_exit _ => intro _ e he; cases he
  | @loop_rhs_throw expr pos precedence op e pos2 _ _ _ ih =>
    intro _
    exact ih (Call.operand_inTable (pos + 1) precedence)
  | loop_fold _ _ _ _ _ ih2 => intro hin; exact ih2 hin
  | unary_throw _ _ _ ih => intro _; exact ih trivial
  | unary_op _ _ _ _ => intro _ e he; cases he
  | unary_value _ _ ih => intro _; exact ih trivial
  | value_literal _ _ => intro _ e he; cases he
  | value_missing _ => intro _ e he; cases he; exact ⟨_, rfl⟩
  | value_unexpected _ _ _ => intro _ e he; cases he; exact ⟨_, rfl⟩
  | value_inner_throw _ _ ih => intro _; exact ih trivial
  | value_unclosed _ _ _ _ => intro _ e he; cases he; exact ⟨_, rfl⟩
  | value_bracket _ _ _ _ _ _ => intro _ e he; cases he

/-- C17: for every input and start position, `ReadExpression` either returns
a tree or throws a `ScriptSyntaxException`; it throws neither an
`InvalidOperationException` nor an `ArgumentException`. -/
theorem ReadExpression_tree_or_syntax_error (ts : List ScriptToken) (pos : Nat) :
    ((∃ tree pos1, ReadExpression ts pos = (.ok tree, pos1)) ∨
        (∃ msg pos1, ReadExpression ts pos = (.error (.ScriptSyntaxException msg), pos1))) ∧
      (∀ msg pos1, ReadExpression ts pos ≠ (.error (.InvalidOperationException msg), pos1)) ∧
      (∀ arg msg pos1, ReadExpression ts pos ≠ (.error (.ArgumentException arg msg), pos1)) := by
  have hr : Reads ts (.expression pos) (ReadExpression ts pos) := Reads_run ts _
  have hs := Reads_throws_syntax ts _ _ hr trivial
  rcases hres : ReadExpression ts pos with ⟨e | tree, pos1⟩
  · rw [hres] at hs
    obtain ⟨msg, hmsg⟩ := hs e rfl
    subst hmsg
    refine ⟨.inr ⟨msg, pos1, rfl⟩, fun m p hc => ?_, fun a m p hc => ?_⟩ <;> cases hc
  · refine ⟨.inl ⟨tree, pos1, rfl⟩, fun m p hc => ?_, fun a m p hc => ?_⟩ <;> cases hc

/-! ## Well-formed trees -/

theorem precedenceTable_subset_operatorTexts (level : Nat) (text : String)
    (h : text ∈ precedenceTable level) : text ∈ operatorTexts := by
  by_cases hl : level ≤ 9
  · interval_cases level <;>
      simp [precedenceTable] at h <;>
      simp [operatorTexts, binaryOperatorTexts, unaryOperatorTexts] <;> tauto
  · have : precedenceTable level = [] := by
      unfold precedenceTable
      split <;> first | omega | rfl
    rw [this] at h
    cases h

/-- The token matched by `MatchOperator` at a level of the table is an
operator whose text is in the set of the level. -/
theorem MatchOperator_precedence_token (ts : List ScriptToken) (pos : Nat) (op : ScriptToken)
    (level : Nat) (hl : level ≤ MAX_PRECEDENCE) (hop : ts[pos]? = some op)
    (hm : MatchOperator_precedence ts pos level = .ok true) :
    op.Kind = .Operator ∧ op.Text ∈ precedenceTable level := by
  obtain ⟨t, ht, hk⟩ := MatchOperator_precedence_true ts pos level hm
  rw [hop] at ht
  cases ht
  exact ⟨hk, (MatchOperator_precedence_operator ts pos op hop hk level hl).1 hm⟩

/-- The token matched by `MatchOperator(pos, op)` is an operator of that
text. -/
theorem MatchOperator_op_token (ts : List ScriptToken) (pos : Nat) (t : ScriptToken)
    (text : String) (ht : ts[pos]? = some t) (hm : MatchOperator_op ts pos text = true) :
    t.Kind = .Operator ∧ t.Text = text := by
  obtain ⟨u, hu, hk, htx⟩ := (MatchOperator_op_eq_true_iff ts pos text).1 hm
  rw [ht] at hu
  cases hu
  exact ⟨hk, htx⟩

/-- At a level of the table, a call that was handed a well-formed tree
returns a well-formed tree. -/
theorem Reads_wellFormed (ts : List ScriptToken) (c : Call) (rp : Reading Expression)
    (h : Reads ts c rp) :
    c.inTable → c.WellFormedInput → ∀ e, rp.1 = .ok e → e.WellFormed := by
  induction h with
  | expression _ ih =>
    intro _ _
    exact ih (by simp [Call.inTable, MIN_PRECEDENCE]) trivial
  | binary_throw _ _ => intro _ _ e he; cases he
  | @binary_loop pos precedence expr pos1 r _ _ ih1 ih2 =>
    intro hin _
    have hw : (Call.operand pos precedence).WellFormedInput := by
      unfold Call.operand; split_ifs <;> trivial
    exact ih2 hin (ih1 (Call.operand_inTable pos precedence) hw expr rfl)
  | loop_throw _ => intro _ _ e he; cases he
  | loop_exit _ =>
    intro _ hw e he
    cases he
    exact hw
  | loop_rhs_throw _ _ _ _ => intro _ _ e he; cases he
  | @loop_fold expr pos precedence op rhs pos2 r hm hop _ _ ih1 ih2 =>
    intro hin hw
    have hin9 : precedence ≤ MAX_PRECEDENCE := hin
    have hwo : (Call.operand (pos + 1) precedence).WellFormedInput := by
      unfold Call.operand; split_ifs <;> trivial
    obtain ⟨hk, ht⟩ := MatchOperator_precedence_token ts pos op precedence hin9 hop hm
    exact ih2 hin ⟨⟨hk, precedenceTable_subset_operatorTexts precedence _ ht⟩, hw,
      ih1 (Call.operand_inTable (pos + 1) precedence) hwo rhs rfl⟩
  | unary_throw _ _ _ _ => intro _ _ e he; cases he
  | @unary_op pos op value pos2 hm hop _ ih =>
    intro _ _ e he
    cases he
    exact ⟨MatchOperator_precedence_token ts pos op MAX_PRECEDENCE (le_refl _) hop hm,
      ih trivial trivial value rfl⟩
  | unary_value _ _ ih => intro _ _; exact ih trivial trivial
  | value_literal _ hl =>
    intro _ _ e he
    cases he
    exact hl
  | value_missing _ => intro _ _ e he; cases he
  | value_unexpected _ _ _ => intro _ _ e he; cases he
  | value_inner_throw _ _ _ => intro _ _ e he; cases he
  | value_unclosed _ _ _ _ => intro _ _ e he; cases he
  | @value_bracket pos open_ expr pos2 close hm ho _ hc hcl ih =>
    intro _ _ e he
    cases he
    exact ⟨MatchOperator_op_token ts pos open_ "(" ho hm,
      MatchOperator_op_token ts pos2 close ")" hcl hc, ih trivial trivial expr rfl⟩

/-- C18 (well-formed trees): every tree returned by `ReadExpression` is well
formed: each literal node holds a token of one of the six literal kinds, each
unary node an operator token with text `~`, `-` or `!`, each bracketed node the
operator tokens `(` and `)`, and each binary node an operator token of the
table. -/
theorem ReadExpression_wellFormed (ts : List ScriptToken) (pos : Nat) (tree : Expression)
    (pos1 : Nat) (h : ReadExpression ts pos = (.ok tree, pos1)) : tree.WellFormed :=
  Reads_wellFormed ts _ _ ((run_eq_iff ts _ _).1 h) trivial trivial tree rfl

/-- Witness of C18: the tree of `- ( a )`. -/
theorem ReadExpression_wellFormed_witness :
    ReadExpression [tokOp "-", tokOp "(", tokA, tokOp ")"] 0 =
        (.ok (.UnaryExpression (tokOp "-")
          (.BracketedExpression (tokOp "(") (.LiteralValue tokA) (tokOp ")"))), 4) ∧
      Expression.WellFormed (.UnaryExpression (tokOp "-")
          (.BracketedExpression (tokOp "(") (.LiteralValue tokA) (tokOp ")"))) :=
  ⟨by decide,
    ReadExpression_wellFormed [tokOp "-", tokOp "(", tokA, tokOp ")"] 0 _ 4 (by decide)⟩

/-! ## Postfix tokens -/

theorem ScriptToken.isBracket_of_literal (t : ScriptToken) (h : t.IsLiteral) :
    t.isBracket = false := by
  have hk := t.IsLiteral_not_operator h
  simp [ScriptToken.isBracket, hk]

theorem ScriptToken.isBracket_of_operatorText (t : ScriptToken) (h : t.Text ∈ operatorTexts) :
    t.isBracket = false := by
  have h1 : t.Text ≠ "(" := by
    intro hc; rw [hc] at h; revert h; decide
  have h2 : t.Text ≠ ")" := by
    intro hc; rw [hc] at h; revert h; decide
  simp [ScriptToken.isBracket, h1, h2]

theorem ScriptToken.isBracket_of_bracket (t : ScriptToken)
    (h : t.Kind = .Operator ∧ (t.Text = "(" ∨ t.Text = ")")) : t.isBracket = true := by
  obtain ⟨hk, ht⟩ := h
  rcases ht with ht | ht <;> simp [ScriptToken.isBracket, hk, ht]

/-- The post-order tokens of a well-formed tree are its in-order tokens
without the brackets, in another order. -/
theorem Expression.postOrder_of_wellFormed (e : Expression) (hw : e.WellFormed) :
    (e.getTokenArray .PostOrder).Perm
        ((e.getTokenArray .InOrder).filter (fun t => !t.isBracket)) ∧
      (∀ t ∈ e.getTokenArray .PostOrder, t.isBracket = false) ∧
      (e.getTokenArray .PostOrder).length + 2 * e.brackets =
        (e.getTokenArray .InOrder).length := by
  induction e with
  | LiteralValue t =>
    have hb := t.isBracket_of_literal hw
    simp [Expression.getTokenArray, Expression.brackets, hb]
  | UnaryExpression op v ih =>
    obtain ⟨⟨_, hop⟩, hv⟩ := hw
    obtain ⟨ih1, ih2, ih3⟩ := ih hv
    have hb := op.isBracket_of_operatorText (List.mem_append_right _ hop)
    refine ⟨?_, ?_, ?_⟩
    · simp only [Expression.getTokenArray, List.singleton_append, List.filter_cons, hb,
        Bool.not_false, if_true]
      exact (List.perm_append_singleton op _).trans (ih1.cons op)
    · intro t ht
      simp only [Expression.getTokenArray, List.mem_append, List.mem_singleton] at ht
      rcases ht with ht | ht
      · exact ih2 t ht
      · rw [ht]; exact hb
    · simp only [Expression.getTokenArray, Expression.brackets, List.length_append,
        List.length_singleton]
      omega
  | BinaryExpression op l r ihl ihr =>
    obtain ⟨⟨_, hop⟩, hl, hr⟩ := hw
    obtain ⟨l1, l2, l3⟩ := ihl hl
    obtain ⟨r1, r2, r3⟩ := ihr hr
    have hb := op.isBracket_of_operatorText hop
    refine ⟨?_, ?_, ?_⟩
    · simp only [Expression.getTokenArray, List.filter_append, List.filter_cons,
        List.filter_nil, hb, Bool.not_false, if_true, List.append_assoc,
        List.singleton_append]
      refine l1.append ?_
      exact (List.perm_append_singleton op _).trans (r1.cons op)
    · intro t ht
      simp only [Expression.getTokenArray, List.mem_append, List.mem_singleton] at ht
      rcases ht with (ht | ht) | ht
      · exact l2 t ht
      · exact r2 t ht
      · rw [ht]; exact hb
    · simp only [Expression.getTokenArray, Expression.brackets, List.length_append,
        List.length_singleton]
      omega
  | BracketedExpression o e c ih =>
    obtain ⟨⟨ho1, ho2⟩, ⟨hc1, hc2⟩, he⟩ := hw
    obtain ⟨ih1, ih2, ih3⟩ := ih he
    have hbo := o.isBracket_of_bracket ⟨ho1, Or.inl ho2⟩
    have hbc := c.isBracket_of_bracket ⟨hc1, Or.inr hc2⟩
    refine ⟨?_, ?_, ?_⟩
    · simp only [Expression.getTokenArray, List.filter_append, List.filter_cons,
        List.filter_nil, hbo, hbc, Bool.not_true, Bool.false_eq_true, if_false,
        List.append_nil, List.nil_append]
      exact ih1
    · exact ih2
    · simp only [Expression.getTokenArray, Expression.brackets, List.length_append,
        List.length_singleton]
      omega

theorem consumed_length (ts : List ScriptToken) (a b : Nat) (h : b ≤ ts.length) :
    (consumed ts a b).length = b - a := by
  simp only [consumed, List.length_take, List.length_drop]
  omega

/-- A tree returned by `ReadExpression` was read from inside the input, and
its in-order tokens are the tokens consumed. -/
theorem ReadExpression_inOrder_consumed (ts : List ScriptToken) (pos : Nat)
    (tree : Expression) (pos1 : Nat) (h : ReadExpression ts pos = (.ok tree, pos1)) :
    pos < pos1 ∧ pos1 ≤ ts.length ∧ tree.getTokenArray .InOrder = consumed ts pos pos1 := by
  have hr : Reads ts (.expression pos) (.ok tree, pos1) := (run_eq_iff ts _ _).1 h
  have hi := Reads_inorder ts _ _ hr tree rfl
  have hb := Reads_bounds ts _ _ hr
  simp only [Call.folded, Call.pos, Call.isLoop, List.nil_append] at hi hb
  have hlt : pos < ts.length := by
    by_contra hge
    have hm := run_eq_of_Reads ts _ _
      (Reads_expression_missing ts pos (List.getElem?_eq_none (by omega)))
    have h2 : run ts (.expression pos) = (.ok tree, pos1) := h
    rw [hm] at h2
    cases h2
  exact ⟨hb.2.2 tree rfl trivial, hb.2.1 (by omega), hi⟩

/-- C19 (postfix drops exactly the brackets): the post-order tokens of a tree
returned by `ReadExpression` are a permutation of the consumed tokens without
the operator tokens `(` and `)`; none of them is a bracket, and their number is
the number of consumed tokens less twice the number of bracketed nodes. -/
theorem ReadExpression_postOrder_drops_brackets (ts : List ScriptToken) (pos : Nat) (tree : Expression)
    (pos1 : Nat) (h : ReadExpression ts pos = (.ok tree, pos1)) :
    (tree.getTokenArray .PostOrder).Perm
        ((consumed ts pos pos1).filter (fun t => !t.isBracket)) ∧
      (∀ t ∈ tree.getTokenArray .PostOrder, t.isBracket = false) ∧
      (consumed ts pos pos1).length = pos1 - pos ∧
      (tree.getTokenArray .PostOrder).length + 2 * tree.brackets = pos1 - pos ∧
      (tree.getTokenArray .PostOrder).length = (pos1 - pos) - 2 * tree.brackets := by
  obtain ⟨_, hle, hin⟩ := ReadExpression_inOrder_consumed ts pos tree pos1 h
  obtain ⟨h1, h2, h3⟩ :=
    tree.postOrder_of_wellFormed
      (Reads_wellFormed ts _ _ ((run_eq_iff ts _ _).1 h) trivial trivial tree rfl)
  have hlen := consumed_length ts pos pos1 hle
  rw [hin] at h1 h3
  rw [hlen] at h3
  exact ⟨h1, h2, hlen, h3, by omega⟩

/-- Witness of C19: `( a + b ) * c`, whose postfix tokens are `a b + c *`. -/
theorem ReadExpression_postOrder_drops_brackets_witness :
    ReadExpression [tokOp "(", tokA, tokOp "+", tokB, tokOp ")", tokOp "*", tokC] 0 =
        (.ok (.BinaryExpression (tokOp "*")
          (.BracketedExpression (tokOp "(")
            (.BinaryExpression (tokOp "+") (.LiteralValue tokA) (.LiteralValue tokB))
            (tokOp ")"))
          (.LiteralValue tokC)), 7) ∧
      (Expression.getTokenArray .PostOrder (.BinaryExpression (tokOp "*")
          (.BracketedExpression (tokOp "(")
            (.BinaryExpression (tokOp "+") (.LiteralValue tokA) (.LiteralValue tokB))
            (tokOp ")"))
          (.LiteralValue tokC))).length = (7 - 0) - 2 * 1 :=
  ⟨by decide,
    (ReadExpression_postOrder_drops_brackets
      [tokOp "(", tokA, tokOp "+", tokB, tokOp ")", tokOp "*", tokC] 0 _ 7
      (by decide)).2.2.2.2⟩

/-! ## The iterator of the four functions -/

/-- A call other than the loop, started inside the input, advances. -/
theorem run_advances (ts : List ScriptToken) (c : Call) (hc : c.isLoop = false)
    (hs : c.pos ≤ ts.length) : Advances ts c.pos (run ts c) := by
  obtain ⟨h1, h2, h3⟩ := Reads_bounds ts c _ (Reads_run ts c)
  exact ⟨h1, h2 hs, fun e he => h3 e he hc⟩

/-- C20 (the iterator only moves forward): started at a position `s` not
behind the end of the input, each of `ReadExpression`, `ReadBinaryExpression`
at any level, `ReadUnaryExpression` and `ReadValue` leaves the iterator at a
position `p` with `s ≤ p ≤ InputEnd`, whether it returned or threw, and with
`s < p` when it returned a tree. -/
theorem iterator_only_advances (ts : List ScriptToken) (s : Nat) (precedence : Nat)
    (hs : s ≤ ts.length) :
    Advances ts s (ReadExpression ts s) ∧
      Advances ts s (ReadBinaryExpression ts s precedence) ∧
      Advances ts s (ReadUnaryExpression ts s) ∧
      Advances ts s (ReadValue ts s) :=
  ⟨run_advances ts (.expression s) rfl hs, run_advances ts (.binary s precedence) rfl hs,
    run_advances ts (.unary s) rfl hs, run_advances ts (.value s) rfl hs⟩

/-- Witness of C20: `1 +` read from its start, where `ReadExpression` throws
behind the `+` and `ReadValue` returns behind the `1`. -/
theorem iterator_only_advances_witness :
    ReadExpression [tok1, tokOp "+"] 0 =
        (.error (.ScriptSyntaxException "Missing operand"), 2) ∧
      ReadValue [tok1, tokOp "+"] 0 = (.ok (.LiteralValue tok1), 1) ∧
      Advances [tok1, tokOp "+"] 0 (ReadExpression [tok1, tokOp "+"] 0) ∧
      Advances [tok1, tokOp "+"] 0 (ReadValue [tok1, tokOp "+"] 0) :=
  ⟨by decide, by decide,
    (iterator_only_advances [tok1, tokOp "+"] 0 0 (by decide)).1,
    (iterator_only_advances [tok1, tokOp "+"] 0 0 (by decide)).2.2.2⟩

/-! ## Termination of the recursion -/

/-- On `n` opening brackets, `ReadExpression` started at the bracket `k`
descends through the remaining brackets and throws at the end of the input. -/
theorem Reads_open_brackets (n : Nat) :
    ∀ (d k : Nat), k + d = n →
      Reads (List.replicate n (tokOp "(")) (.expression k)
        (.error (.ScriptSyntaxException "Missing operand"), n) := by
  intro d
  induction d with
  | zero =>
    intro k hk
    have hkn : k = n := by omega
    subst hkn
    exact Reads_expression_missing _ k (List.getElem?_eq_none (by simp))
  | succ d ih =>
    intro k hk
    have hlt : k < (List.replicate n (tokOp "(")).length := by simp; omega
    have ht : (List.replicate n (tokOp "("))[k]? = some (tokOp "(") := by
      rw [List.getElem?_eq_getElem hlt]
      simp
    have h9 : MatchOperator_precedence (List.replicate n (tokOp "(")) k MAX_PRECEDENCE =
        .ok false := by
      rw [MatchOperator_precedence_at _ k _ ht]
      decide
    have hopen : MatchOperator_op (List.replicate n (tokOp "(")) k "(" = true :=
      (MatchOperator_op_eq_true_iff _ _ _).2 ⟨tokOp "(", ht, rfl, rfl⟩
    exact Reads_expression_of_unary_throw _ k _ n
      (.unary_value h9 (.value_inner_throw hopen (ih (k + 1) (by omega))))

/-- C21 (termination): with fuel `13 * InputEnd + 13` or more, which bounds
the depth of calls by the number of remaining tokens and the levels left to
climb, each of the mutually recursive functions ends, at every position and
level, in the result of the total function; in particular `ReadExpression` ends
on any number of nested opening brackets. -/
theorem ReadExpression_terminates (ts : List ScriptToken) (pos : Nat) (fuel : Nat)
    (h : 13 * ts.length + 13 ≤ fuel) :
    ReadExpressionAux ts fuel pos = some (ReadExpression ts pos) ∧
      (∀ precedence, ReadBinaryExpressionAux ts fuel pos precedence =
        some (ReadBinaryExpression ts pos precedence)) ∧
      ReadUnaryExpressionAux ts fuel pos = some (ReadUnaryExpression ts pos) ∧
      ReadValueAux ts fuel pos = some (ReadValue ts pos) ∧
      (∀ n, ReadExpression (List.replicate n (tokOp "(")) 0 =
        (.error (.ScriptSyntaxException "Missing operand"), n)) := by
  have key : ∀ c, runAux ts fuel c = some (run ts c) := fun c =>
    runAux_mono ts (fuelFor ts) fuel h c _ (runAux_total ts c)
  exact ⟨key (.expression pos), fun precedence => key (.binary pos precedence),
    key (.unary pos), key (.value pos),
    fun n => run_eq_of_Reads _ _ _ (Reads_open_brackets n n 0 (by omega))⟩

/-- Witness of C21: `( ( ( 1 ) ) )` with fuel 104. -/
theorem ReadExpression_terminates_witness :
    ReadExpressionAux
        [tokOp "(", tokOp "(", tokOp "(", tok1, tokOp ")", tokOp ")", tokOp ")"] 104 0 =
      some (.ok (.BracketedExpression (tokOp "(")
        (.BracketedExpression (tokOp "(")
          (.BracketedExpression (tokOp "(") (.LiteralValue tok1) (tokOp ")"))
          (tokOp ")"))
        (tokOp ")")), 7) :=
  ((ReadExpression_terminates
    [tokOp "(", tokOp "(", tokOp "(", tok1, tokOp ")", tokOp ")", tokOp ")"] 0 104
    (by decide)).1).trans (by decide)

/-! ## Unary operators -/

/-- A call that was handed a tree with plain unary operands returns such a
tree, and `ReadValue` returns a literal or a bracketed expression. -/
theorem Reads_unaryPlain (ts : List ScriptToken) (c : Call) (rp : Reading Expression)
    (h : Reads ts c rp) :
    c.UnaryPlainInput → ∀ e, rp.1 = .ok e →
      e.UnaryPlain ∧ (c.isValue = true → e.isValue = true) := by
  induction h with
  | expression _ ih =>
    intro _ e he
    exact ⟨(ih trivial e he).1, by simp [Call.isValue]⟩
  | binary_throw _ _ => intro _ e he; cases he
  | @binary_loop pos precedence expr pos1 r _ _ ih1 ih2 =>
    intro _ e he
    have hw : (Call.operand pos precedence).UnaryPlainInput := by
      unfold Call.operand; split_ifs <;> trivial
    exact ⟨(ih2 (ih1 hw expr rfl).1 e he).1, by simp [Call.isValue]⟩
  | loop_throw _ => intro _ e he; cases he
  | loop_exit _ =>
    intro hw e he
    cases he
    exact ⟨hw, by simp [Call.isValue]⟩
  | loop_rhs_throw _ _ _ _ => intro _ e he; cases he
  | @loop_fold expr pos precedence op rhs pos2 r _ _ _ _ ih1 ih2 =>
    intro hw e he
    have hwo : (Call.operand (pos + 1) precedence).UnaryPlainInput := by
      unfold Call.operand; split_ifs <;> trivial
    exact ⟨(ih2 ⟨hw, (ih1 hwo rhs rfl).1⟩ e he).1, by simp [Call.isValue]⟩
  | unary_throw _ _ _ _ => intro _ e he; cases he
  | @unary_op pos op value pos2 _ _ _ ih =>
    intro _ e he
    cases he
    obtain ⟨h1, h2⟩ := ih trivial value rfl
    exact ⟨⟨h2 rfl, h1⟩, by simp [Call.isValue]⟩
  | unary_value _ _ ih =>
    intro _ e he
    exact ⟨(ih trivial e he).1, by simp [Call.isValue]⟩
  | value_literal _ _ =>
    intro _ e he
    cases he
    exact ⟨trivial, fun _ => rfl⟩
  | value_missing _ => intro _ e he; cases he
  | value_unexpected _ _ _ => intro _ e he; cases he
  | value_inner_throw _ _ _ => intro _ e he; cases he
  | value_unclosed _ _ _ _ => intro _ e he; cases he
  | @value_bracket pos open_ expr pos2 close _ _ _ _ _ ih =>
    intro _ e he
    cases he
    exact ⟨(ih trivial expr rfl).1, fun _ => rfl⟩

/-- C22 (unary operators do not stack): for unary operators `u1`, `u2` among
`~`, `-`, `!` and any token `a`, `ReadExpression` on `[u1, u2, a]` throws the
syntax error "Unexpected" naming the text of `u2`, with the iterator on `u2`;
and in every tree `ReadExpression` returns, the operand of each unary node is a
literal or a bracketed node. -/
theorem ReadExpression_unary_does_not_stack (u1 u2 a : ScriptToken)
    (h1 : u1.Kind = .Operator ∧ u1.Text ∈ unaryOperatorTexts)
    (h2 : u2.Kind = .Operator ∧ u2.Text ∈ unaryOperatorTexts) :
    ReadExpression [u1, u2, a] 0 =
        (.error (.ScriptSyntaxException ("Unexpected \x27" ++ u2.Text ++ "\x27")), 1) ∧
      (∀ ts pos tree pos1, ReadExpression ts pos = (.ok tree, pos1) → tree.UnaryPlain) := by
  constructor
  · apply run_eq_of_Reads
    apply Reads_expression_of_unary_throw
    have hm : MatchOperator_precedence [u1, u2, a] 0 MAX_PRECEDENCE = .ok true :=
      MatchOperator_precedence_of_BindsAt _ 0 u1 rfl _
        (u1.BindsAt_of_unaryOperatorText h1.1 h1.2)
    have hl : ¬ u2.IsLiteral := fun hl => u2.IsLiteral_not_operator hl h2.1
    have hb : MatchOperator_op [u1, u2, a] 1 "(" = false := by
      rw [Bool.eq_false_iff]
      intro hc
      obtain ⟨_, htx⟩ := MatchOperator_op_token [u1, u2, a] 1 u2 "(" rfl hc
      have hmem := h2.2
      rw [htx] at hmem
      revert hmem
      decide
    have hr : Reads [u1, u2, a] (.unary 0)
        (.error (.ScriptSyntaxException ("Unexpected \x27" ++ c_str u2.Text ++ "\x27")), 1) :=
      .unary_throw hm rfl (.value_unexpected rfl hl hb)
    rw [c_str_of_unaryOperatorText u2.Text h2.2] at hr
    exact hr
  · intro ts pos tree pos1 h
    exact (Reads_unaryPlain ts _ _ ((run_eq_iff ts _ _).1 h) trivial tree rfl).1

/-- Witness of C22: `- ! a` throws "Unexpected" naming `!`, and the unary node
of `- ( a )` has a bracketed operand. -/
theorem ReadExpression_unary_does_not_stack_witness :
    ReadExpression [tokOp "-", tokOp "!", tokA] 0 =
        (.error (.ScriptSyntaxException "Unexpected \x27!\x27"), 1) ∧
      ReadExpression [tokOp "-", tokOp "(", tokA, tokOp ")"] 0 =
        (.ok (.UnaryExpression (tokOp "-")
          (.BracketedExpression (tokOp "(") (.LiteralValue tokA) (tokOp ")"))), 4) ∧
      Expression.UnaryPlain (.UnaryExpression (tokOp "-")
          (.BracketedExpression (tokOp "(") (.LiteralValue tokA) (tokOp ")"))) :=
  ⟨(ReadExpression_unary_does_not_stack (tokOp "-") (tokOp "!") tokA
      ⟨rfl, by decide⟩ ⟨rfl, by decide⟩).1,
    by decide,
    (ReadExpression_unary_does_not_stack (tokOp "-") (tokOp "!") tokA
      ⟨rfl, by decide⟩ ⟨rfl, by decide⟩).2
      [tokOp "-", tokOp "(", tokA, tokOp ")"] 0 _ 4 (by decide)⟩

end Logic.Scripts.Compiler
